import Mathlib

/-!
Verification of the minesweeper knowledge-based solver
(`src/minesweeper/minesweeper.py`).

The embedding translates the `Sentence` class and the `MinesweeperAI` class
into pure Lean definitions.  Cells are integer coordinate pairs (Python
ints), sentence counts are integers (they can go negative in the source when
inconsistent knowledge is processed), Python `set`s become `Finset`s, and the
`self.knowledge` Python list becomes a `List Sentence`.  The unbounded
`while loop_again:` loop of `add_knowledge` is modelled with explicit fuel:
`propagate fuel st` returns `none` when `fuel` passes were not enough for the
loop to exit.  Iteration over a Python `set` (whose order is unspecified) is
modelled by folding over `Finset.toList`; all the per-cell marking operations
commute, so any order denotes the source faithfully.
-/

/-- A board cell `(row, col)`; Python tuples of ints. -/
abbrev Cell := ℤ × ℤ

/-- The linear order used to enumerate a `Finset` of cells: Python iterates
its `set`s in an unspecified order, and all per-cell operations folded over
such an iteration commute, so a fixed total order is a faithful denotation. -/
def cellLe (a b : Cell) : Prop := a.1 < b.1 ∨ (a.1 = b.1 ∧ a.2 ≤ b.2)

instance : DecidableRel cellLe := fun a b => by unfold cellLe; infer_instance

instance : IsTrans Cell cellLe where
  trans a b c hab hbc := by
    rcases hab with h | ⟨h1, h2⟩ <;> rcases hbc with h' | ⟨h1', h2'⟩ <;>
      unfold cellLe <;> omega

instance : IsAntisymm Cell cellLe where
  antisymm a b hab hba := by
    rcases hab with h | ⟨h1, h2⟩ <;> rcases hba with h' | ⟨h1', h2'⟩ <;>
      [omega; omega; omega; exact Prod.ext h1 (le_antisymm h2 h2')]

instance : IsTotal Cell cellLe where
  total a b := by unfold cellLe; omega

/-- Enumerate a finite set of cells as a list (a Python `for cell in s:`),
sorted by `cellLe`.  Insertion sort is used because it is structurally
recursive, so concrete runs reduce inside the kernel. -/
def cellList (s : Finset Cell) : List Cell :=
  Quot.liftOn s.val (List.insertionSort cellLe) (fun _ _ h =>
    List.eq_of_perm_of_sorted
      ((List.perm_insertionSort _ _).trans (h.trans (List.perm_insertionSort _ _).symm))
      (List.sorted_insertionSort _ _) (List.sorted_insertionSort _ _))

/-- Membership in `cellList` is membership in the set. -/
theorem mem_cellList {s : Finset Cell} {c : Cell} : c ∈ cellList s ↔ c ∈ s := by
  rcases s with ⟨m, nd⟩
  induction m using Quot.inductionOn with
  | h l =>
    show c ∈ List.insertionSort cellLe l ↔ _
    rw [(List.perm_insertionSort cellLe l).mem_iff]
    rfl

/-- `cellList` has no duplicates. -/
theorem cellList_nodup (s : Finset Cell) : (cellList s).Nodup := by
  rcases s with ⟨m, nd⟩
  induction m using Quot.inductionOn with
  | h l => exact (List.perm_insertionSort cellLe l).nodup_iff.mpr nd

/-- `cellList` recovers the set. -/
theorem cellList_toFinset (s : Finset Cell) : (cellList s).toFinset = s := by
  ext c
  simp [List.mem_toFinset, mem_cellList]

/-- The enumeration of the empty set is the empty list. -/
theorem cellList_empty : cellList ∅ = [] := rfl

/-- `Sentence(cells, count)` from the source: "exactly `count` of `cells`
are mines".  `count` is a Python int, hence `ℤ`. -/
structure Sentence where
  cells : Finset Cell
  count : ℤ
deriving DecidableEq

namespace Sentence

/-- `Sentence.known_mines`: `if self.count == len(self.cells): return self.cells`
(implicitly returning `None` otherwise). -/
def known_mines (s : Sentence) : Option (Finset Cell) :=
  if s.count = (s.cells.card : ℤ) then some s.cells else none

/-- `Sentence.known_safes`: `if self.count == 0: return self.cells`
(implicitly returning `None` otherwise). -/
def known_safes (s : Sentence) : Option (Finset Cell) :=
  if s.count = 0 then some s.cells else none

/-- `Sentence.mark_mine`: `if cell in self.cells: self.cells.remove(cell); self.count -= 1`. -/
def mark_mine (s : Sentence) (cell : Cell) : Sentence :=
  if cell ∈ s.cells then { cells := s.cells.erase cell, count := s.count - 1 } else s

/-- `Sentence.mark_safe`: `if cell in self.cells: self.cells.remove(cell)`. -/
def mark_safe (s : Sentence) (cell : Cell) : Sentence :=
  if cell ∈ s.cells then { cells := s.cells.erase cell, count := s.count } else s

end Sentence

/-- The mutable state of a `MinesweeperAI` instance: `height`, `width`,
`moves_made`, `mines`, `safes`, `knowledge`. -/
structure AIState where
  height : ℤ
  width : ℤ
  moves_made : Finset Cell
  mines : Finset Cell
  safes : Finset Cell
  knowledge : List Sentence
deriving DecidableEq

/-- `MinesweeperAI.__init__(height, width)`: empty sets, empty knowledge list. -/
def freshAI (height width : ℤ) : AIState :=
  { height := height, width := width, moves_made := ∅, mines := ∅, safes := ∅, knowledge := [] }

namespace AIState

/-- `MinesweeperAI.mark_mine`: add to `self.mines` and call `Sentence.mark_mine`
on every sentence in `self.knowledge`. -/
def mark_mine (st : AIState) (cell : Cell) : AIState :=
  { st with mines := insert cell st.mines,
            knowledge := st.knowledge.map (fun s => s.mark_mine cell) }

/-- `MinesweeperAI.mark_safe`: add to `self.safes` and call `Sentence.mark_safe`
on every sentence in `self.knowledge`. -/
def mark_safe (st : AIState) (cell : Cell) : AIState :=
  { st with safes := insert cell st.safes,
            knowledge := st.knowledge.map (fun s => s.mark_safe cell) }

/-- The `directions` list of `find_unexplored_neighbors`, in source order. -/
def directions : List (ℤ × ℤ) :=
  [(0, 1), (0, -1), (1, 0), (-1, 0), (1, 1), (-1, -1), (1, -1), (-1, 1)]

/-- `MinesweeperAI.find_unexplored_neighbors`: for each direction, add
`(y+dy, x+dx)` when it is inside the grid bounds and not in
`moves_made | safes | mines`. -/
def find_unexplored_neighbors (st : AIState) (cell : Cell) : Finset Cell :=
  directions.foldl
    (fun neighbors d =>
      let nc : Cell := (cell.1 + d.1, cell.2 + d.2)
      if (0 ≤ nc.1 ∧ nc.1 < st.height ∧ 0 ≤ nc.2 ∧ nc.2 < st.width)
          ∧ nc ∉ st.moves_made ∪ st.safes ∪ st.mines
      then insert nc neighbors else neighbors)
    ∅

end AIState

/-- The set `mines_to_be_marked` of one propagation pass: cells of sentences
with `len(sentence.cells) == sentence.count` that are not already in
`self.mines` (membership in the accumulating set only deduplicates). -/
def minesToBeMarked (st : AIState) : Finset Cell :=
  (st.knowledge.foldl
    (fun acc s => if (s.cells.card : ℤ) = s.count then acc ∪ s.cells else acc) ∅)
    \ st.mines

/-- The set `safes_to_be_marked` of one propagation pass: cells of sentences
with `sentence.count == 0` that are not already in `self.safes`. -/
def safesToBeMarked (st : AIState) : Finset Cell :=
  (st.knowledge.foldl
    (fun acc s => if s.count = 0 then acc ∪ s.cells else acc) ∅)
    \ st.safes

/-- The `new_knowledge` list built by the subset-inference step of a pass:
for every ordered pair `(sentence_a, sentence_b)` of the current knowledge
list with unequal cell sets and `sentence_a.cells ⊆ sentence_b.cells`,
the candidate `Sentence(b.cells - a.cells, b.count - a.count)` is appended
when it is neither in the knowledge list nor already queued. -/
def subsetNew (knowledge : List Sentence) : List Sentence :=
  knowledge.foldl
    (fun acc a =>
      knowledge.foldl
        (fun acc b =>
          if a.cells ≠ b.cells ∧ a.cells ⊆ b.cells then
            let ns : Sentence := ⟨b.cells \ a.cells, b.count - a.count⟩
            if ns ∉ knowledge ∧ ns ∉ acc then acc ++ [ns] else acc
          else acc)
        acc)
    []

/-- One iteration of the `while loop_again:` body of `add_knowledge`:
mine extraction (collect then mark), safe extraction (collect, remove the
`count == 0` sentences, then mark), then subset inference.  The returned
boolean is the `loop_again` flag accumulated by the three sub-steps. -/
def onePass (st : AIState) : AIState × Bool :=
  let mtm := minesToBeMarked st
  let st1 := (cellList mtm).foldl AIState.mark_mine st
  let stm := safesToBeMarked st1
  let st2 := { st1 with knowledge := st1.knowledge.filter (fun s => ¬ s.count = 0) }
  let st3 := (cellList stm).foldl AIState.mark_safe st2
  let nk := subsetNew st3.knowledge
  let st4 := { st3 with knowledge := st3.knowledge ++ nk }
  (st4, decide (mtm ≠ ∅) || decide (stm ≠ ∅) || decide (nk ≠ []))

/-- The `while loop_again:` loop of `add_knowledge`, with fuel: `none` means
the loop was still running after `fuel` passes. -/
def propagate : ℕ → AIState → Option AIState
  | 0, _ => none
  | fuel + 1, st =>
    let p := onePass st
    if p.2 then propagate fuel p.1 else some p.1

/-- The opening of `add_knowledge`: record the move in `moves_made` and mark
the revealed cell safe. -/
def ingestStart (st : AIState) (cell : Cell) : AIState :=
  AIState.mark_safe { st with moves_made := insert cell st.moves_made } cell

/-- `MinesweeperAI.add_knowledge(cell, count)`: record the move, mark the
cell safe, compute the unexplored neighbors, resolve them trivially or append
a new sentence, then run the propagation loop (with fuel). -/
def addKnowledge (fuel : ℕ) (st : AIState) (cell : Cell) (count : ℤ) : Option AIState :=
  let st2 := ingestStart st cell
  let unexplored := st2.find_unexplored_neighbors cell
  let st3 :=
    if count = 0 then (cellList unexplored).foldl AIState.mark_safe st2
    else if (unexplored.card : ℤ) ≤ count then (cellList unexplored).foldl AIState.mark_mine st2
    else { st2 with knowledge := st2.knowledge ++ [⟨unexplored, count⟩] }
  propagate fuel st3

/-- A sequence of `add_knowledge` calls, each given the same fuel; `none` as
soon as one call's propagation loop exhausts its fuel. -/
def runSeq (fuel : ℕ) : AIState → List (Cell × ℤ) → Option AIState
  | st, [] => some st
  | st, (c, n) :: rest =>
    match addKnowledge fuel st c n with
    | none => none
    | some st' => runSeq fuel st' rest

/-- `MinesweeperAI.make_safe_move`: return a cell popped from
`self.safes - self.moves_made` when that set is non-empty, else `None`;
the method only reads the solver state. -/
def makeSafeMove (st : AIState) : AIState × Option Cell :=
  let unmade_safes := st.safes \ st.moves_made
  match cellList unmade_safes with
  | [] => (st, none)
  | c :: _ => (st, some c)

/-- `MinesweeperAI.make_random_move`: keep sampling until a cell outside
`moves_made` and `mines` appears.  The `while True:` loop over the ambient
random generator is modelled by a stream of samples; `none` when the stream
runs out.  The method only reads the solver state. -/
def makeRandomMove : AIState → List Cell → AIState × Option Cell
  | st, [] => (st, none)
  | st, c :: rest =>
    if c ∈ st.moves_made ∨ c ∈ st.mines then makeRandomMove st rest else (st, some c)

/-! ## Sentence algebra (claims C5, C6) -/

/-- Claim C5: `known_mines` returns the full cell set exactly when the count
equals the number of cells and signals no conclusion (`none`) otherwise;
`known_safes` returns the full cell set exactly when the count is `0` and
signals no conclusion otherwise. -/
theorem claim_C5 (S : Sentence) :
    (S.known_mines = some S.cells ↔ S.count = (S.cells.card : ℤ)) ∧
    (S.known_mines = none ↔ S.count ≠ (S.cells.card : ℤ)) ∧
    (S.known_safes = some S.cells ↔ S.count = 0) ∧
    (S.known_safes = none ↔ S.count ≠ 0) := by
  unfold Sentence.known_mines Sentence.known_safes
  by_cases h1 : S.count = (S.cells.card : ℤ) <;> by_cases h2 : S.count = 0 <;>
    simp [h1, h2]

/-- Claim C6: `Sentence.mark_mine` and `Sentence.mark_safe` are no-ops on a
cell outside the sentence; on a cell of the sentence both remove it, and
`mark_mine` additionally decrements the count by exactly `1` while
`mark_safe` keeps the count. -/
theorem claim_C6 (S : Sentence) (c : Cell) :
    (c ∉ S.cells → S.mark_mine c = S ∧ S.mark_safe c = S) ∧
    (c ∈ S.cells →
      (S.mark_mine c).cells = S.cells.erase c ∧
      (S.mark_mine c).count = S.count - 1 ∧
      (S.mark_safe c).cells = S.cells.erase c ∧
      (S.mark_safe c).count = S.count) := by
  unfold Sentence.mark_mine Sentence.mark_safe
  by_cases h : c ∈ S.cells <;> simp [h]

/-- Witness for C6 at a concrete sentence and cells, discharging both the
membership and the non-membership hypothesis. -/
theorem claim_C6_witness :
    (((⟨{((0:ℤ),(0:ℤ))}, 1⟩ : Sentence).mark_mine ((0:ℤ),(0:ℤ))).cells =
        ({((0:ℤ),(0:ℤ))} : Finset Cell).erase ((0:ℤ),(0:ℤ)) ∧
      ((⟨{((0:ℤ),(0:ℤ))}, 1⟩ : Sentence).mark_mine ((0:ℤ),(0:ℤ))).count = 0 ∧
      ((⟨{((0:ℤ),(0:ℤ))}, 1⟩ : Sentence).mark_safe ((0:ℤ),(0:ℤ))).cells =
        ({((0:ℤ),(0:ℤ))} : Finset Cell).erase ((0:ℤ),(0:ℤ)) ∧
      ((⟨{((0:ℤ),(0:ℤ))}, 1⟩ : Sentence).mark_safe ((0:ℤ),(0:ℤ))).count = 1) ∧
    ((⟨{((0:ℤ),(0:ℤ))}, 1⟩ : Sentence).mark_mine ((1:ℤ),(1:ℤ)) = ⟨{((0:ℤ),(0:ℤ))}, 1⟩ ∧
      (⟨{((0:ℤ),(0:ℤ))}, 1⟩ : Sentence).mark_safe ((1:ℤ),(1:ℤ)) = ⟨{((0:ℤ),(0:ℤ))}, 1⟩) :=
  ⟨(claim_C6 ⟨{((0:ℤ),(0:ℤ))}, 1⟩ ((0:ℤ),(0:ℤ))).2 (by decide),
   (claim_C6 ⟨{((0:ℤ),(0:ℤ))}, 1⟩ ((1:ℤ),(1:ℤ))).1 (by decide)⟩

/-! ## Concrete end-to-end scenarios (claims C1, C7, C9) and the
monotonicity counterexample (claim C4) -/

/-- Boolean check that a knowledge list is exactly a given list of
(cell set, count) pairs, in order. -/
def knowledgeMatches : List Sentence → List (Finset Cell × ℤ) → Bool
  | [], [] => true
  | s :: k, (c, n) :: sp =>
    decide (s.cells = c) && decide (s.count = n) && knowledgeMatches k sp
  | _, _ => false

/-- The fields of a solver state are exactly the given values (the grid
dimensions are left implicit: no operation changes them). -/
abbrev stateIs (st : AIState) (moves mines safes : Finset Cell)
    (spec : List (Finset Cell × ℤ)) : Prop :=
  st.moves_made = moves ∧ st.mines = mines ∧ st.safes = safes ∧
    knowledgeMatches st.knowledge spec = true

/-- An `add_knowledge` run converged (the fuel sufficed) and produced exactly
the given field values. -/
abbrev optStateIs (o : Option AIState) (moves mines safes : Finset Cell)
    (spec : List (Finset Cell × ℤ)) : Prop :=
  o.isSome = true ∧ stateIs (o.getD (freshAI 0 0)) moves mines safes spec

/-- The four observations of the spec's end-to-end 3x3 scenario. -/
def c1Calls : List (Cell × ℤ) :=
  [(((0:ℤ),(0:ℤ)), 0), (((1:ℤ),(1:ℤ)), 1), (((1:ℤ),(2:ℤ)), 1), (((2:ℤ),(1:ℤ)), 1)]

/-- The eight cells the scenario of claim C1 must end with in `safes`. -/
def c1Safes : Finset Cell :=
  {((0:ℤ),(0:ℤ)), ((0:ℤ),(1:ℤ)), ((0:ℤ),(2:ℤ)), ((1:ℤ),(0:ℤ)),
   ((1:ℤ),(1:ℤ)), ((1:ℤ),(2:ℤ)), ((2:ℤ),(0:ℤ)), ((2:ℤ),(1:ℤ))}

/-- Claim C1: the four-call 3x3 scenario converges: afterwards `(2,2)` is in
the solver's `mines` and all eight remaining grid cells are in its `safes`
(the final state is given in full: knowledge ends empty). -/
theorem claim_C1 :
    optStateIs (runSeq 10 (freshAI 3 3) c1Calls)
      {((0:ℤ),(0:ℤ)), ((1:ℤ),(1:ℤ)), ((1:ℤ),(2:ℤ)), ((2:ℤ),(1:ℤ))}
      {((2:ℤ),(2:ℤ))} c1Safes [] ∧
    ((2:ℤ),(2:ℤ)) ∈ ((runSeq 10 (freshAI 3 3) c1Calls).getD (freshAI 0 0)).mines ∧
    ((0:ℤ),(0:ℤ)) ∈ ((runSeq 10 (freshAI 3 3) c1Calls).getD (freshAI 0 0)).safes ∧
    ((0:ℤ),(1:ℤ)) ∈ ((runSeq 10 (freshAI 3 3) c1Calls).getD (freshAI 0 0)).safes ∧
    ((0:ℤ),(2:ℤ)) ∈ ((runSeq 10 (freshAI 3 3) c1Calls).getD (freshAI 0 0)).safes ∧
    ((1:ℤ),(0:ℤ)) ∈ ((runSeq 10 (freshAI 3 3) c1Calls).getD (freshAI 0 0)).safes ∧
    ((1:ℤ),(1:ℤ)) ∈ ((runSeq 10 (freshAI 3 3) c1Calls).getD (freshAI 0 0)).safes ∧
    ((1:ℤ),(2:ℤ)) ∈ ((runSeq 10 (freshAI 3 3) c1Calls).getD (freshAI 0 0)).safes ∧
    ((2:ℤ),(0:ℤ)) ∈ ((runSeq 10 (freshAI 3 3) c1Calls).getD (freshAI 0 0)).safes ∧
    ((2:ℤ),(1:ℤ)) ∈ ((runSeq 10 (freshAI 3 3) c1Calls).getD (freshAI 0 0)).safes := by
  decide

/-- The state after `add_knowledge((0,0), 0)` on a fresh 3x3 solver. -/
def c7After1 : AIState :=
  { height := 3, width := 3,
    moves_made := {((0:ℤ),(0:ℤ))}, mines := ∅,
    safes := {((0:ℤ),(0:ℤ)), ((0:ℤ),(1:ℤ)), ((1:ℤ),(0:ℤ)), ((1:ℤ),(1:ℤ))},
    knowledge := [] }

/-- The unexplored-neighbor set the code actually computes for `(1,1)` in the
second call of the scenario. -/
def c7Unexplored : Finset Cell :=
  {((0:ℤ),(2:ℤ)), ((1:ℤ),(2:ℤ)), ((2:ℤ),(0:ℤ)), ((2:ℤ),(1:ℤ)), ((2:ℤ),(2:ℤ))}

/-- Counterexample to claim C7: in the second call of the scenario the
unexplored-neighbor set of `(1,1)` is not the claimed three-cell set: the
cells `(0,2)` and `(2,0)` were never marked safe by the first call. -/
theorem claim_C7_counterexample :
    optStateIs (addKnowledge 10 (freshAI 3 3) ((0:ℤ),(0:ℤ)) 0)
      c7After1.moves_made c7After1.mines c7After1.safes [] ∧
    (ingestStart c7After1 ((1:ℤ),(1:ℤ))).find_unexplored_neighbors ((1:ℤ),(1:ℤ)) ≠
      {((1:ℤ),(2:ℤ)), ((2:ℤ),(1:ℤ)), ((2:ℤ),(2:ℤ))} ∧
    ((0:ℤ),(2:ℤ)) ∈ (ingestStart c7After1 ((1:ℤ),(1:ℤ))).find_unexplored_neighbors ((1:ℤ),(1:ℤ)) := by
  decide

/-- Claim C7 as amended: the second call computes the five-cell
unexplored-neighbor set for `(1,1)` and, since its size `5` exceeds the
count `1`, appends the sentence over that set with count `1` as the sole
sentence of the knowledge collection. -/
theorem claim_C7_amended :
    optStateIs (addKnowledge 10 (freshAI 3 3) ((0:ℤ),(0:ℤ)) 0)
      c7After1.moves_made c7After1.mines c7After1.safes [] ∧
    (ingestStart c7After1 ((1:ℤ),(1:ℤ))).find_unexplored_neighbors ((1:ℤ),(1:ℤ)) = c7Unexplored ∧
    (1:ℤ) < (c7Unexplored.card : ℤ) ∧
    optStateIs (addKnowledge 10 c7After1 ((1:ℤ),(1:ℤ)) 1)
      {((0:ℤ),(0:ℤ)), ((1:ℤ),(1:ℤ))} ∅ c7After1.safes [(c7Unexplored, 1)] := by
  decide

/-- The state reached by feeding the out-of-bounds cell `(5,5)` to a fresh
3x3 solver: the call completes normally and records the cell. -/
def c9Final : AIState :=
  { height := 3, width := 3,
    moves_made := {((5:ℤ),(5:ℤ))}, mines := ∅, safes := {((5:ℤ),(5:ℤ))},
    knowledge := [] }

/-- Counterexample to claim C9: `add_knowledge` on the out-of-bounds cell
`(5,5)` of a 3x3 grid completes normally and records the cell as a move,
instead of rejecting it. -/
theorem claim_C9_counterexample :
    (addKnowledge 10 (freshAI 3 3) ((5:ℤ),(5:ℤ)) 0).isSome = true ∧
    ((5:ℤ),(5:ℤ)) ∈ ((addKnowledge 10 (freshAI 3 3) ((5:ℤ),(5:ℤ)) 0).getD (freshAI 3 3)).moves_made := by
  decide

/-- Claim C9 as amended: an out-of-bounds cell is accepted silently:
`add_knowledge((5,5), 0)` on a fresh 3x3 solver records the cell in
`moves_made` and `safes`, clips all its neighbors away (leaving the
knowledge collection empty), and returns with no invalid-input signal of
any kind. -/
theorem claim_C9_amended :
    addKnowledge 10 (freshAI 3 3) ((5:ℤ),(5:ℤ)) 0 = some c9Final := by
  decide

/-- Counterexample to claim C4: after the two-call sequence
`add_knowledge((0,0), 3); add_knowledge((0,1), 0)` on a fresh 3x3 solver the
cell `(0,1)` is in both `safes` and `mines`, so the two sets are not
disjoint after every call of the sequence. -/
theorem claim_C4_counterexample :
    optStateIs (runSeq 10 (freshAI 3 3) [(((0:ℤ),(0:ℤ)), 3), (((0:ℤ),(1:ℤ)), 0)])
      {((0:ℤ),(0:ℤ)), ((0:ℤ),(1:ℤ))}
      {((0:ℤ),(1:ℤ)), ((1:ℤ),(0:ℤ)), ((1:ℤ),(1:ℤ))}
      {((0:ℤ),(0:ℤ)), ((0:ℤ),(1:ℤ)), ((0:ℤ),(2:ℤ)), ((1:ℤ),(2:ℤ))} [] ∧
    ((0:ℤ),(1:ℤ)) ∈ ((runSeq 10 (freshAI 3 3) [(((0:ℤ),(0:ℤ)), 3), (((0:ℤ),(1:ℤ)), 0)]).getD (freshAI 0 0)).safes ∧
    ((0:ℤ),(1:ℤ)) ∈ ((runSeq 10 (freshAI 3 3) [(((0:ℤ),(0:ℤ)), 3), (((0:ℤ),(1:ℤ)), 0)]).getD (freshAI 0 0)).mines := by
  decide

/-! ## Move selection (claim C8) -/

/-- Claim C8: `make_safe_move` leaves the whole solver state unchanged, and
returns some cell of `safes \ moves_made` when that set is non-empty and
`None` when it is empty. -/
theorem claim_C8 (st : AIState) :
    (makeSafeMove st).1 = st ∧
    (st.safes \ st.moves_made = ∅ → (makeSafeMove st).2 = none) ∧
    (st.safes \ st.moves_made ≠ ∅ →
      ∃ c, (makeSafeMove st).2 = some c ∧ c ∈ st.safes \ st.moves_made) := by
  have h2 := cellList_toFinset (st.safes \ st.moves_made)
  rcases h : cellList (st.safes \ st.moves_made) with _ | ⟨c, rest⟩
  · have key : makeSafeMove st = (st, none) := by
      show (match cellList (st.safes \ st.moves_made) with
            | [] => (st, none)
            | c :: _ => (st, some c)) = (st, none)
      rw [h]
    rw [h] at h2
    rw [key]
    exact ⟨rfl, fun _ => rfl, fun hne => absurd (by simpa using h2.symm) hne⟩
  · have key : makeSafeMove st = (st, some c) := by
      show (match cellList (st.safes \ st.moves_made) with
            | [] => (st, none)
            | c :: _ => (st, some c)) = (st, some c)
      rw [h]
    rw [key]
    refine ⟨rfl, fun he => ?_, fun _ => ⟨c, rfl, ?_⟩⟩
    · rw [he, cellList_empty] at h
      cases h
    · have hc : c ∈ cellList (st.safes \ st.moves_made) := by
        rw [h]; exact List.mem_cons_self _ _
      exact mem_cellList.mp hc

/-- Witness for C8: on a fresh 2x2 solver no safe move exists; with one
unplayed safe cell recorded, some cell of `safes \ moves_made` is returned. -/
theorem claim_C8_witness :
    (makeSafeMove (freshAI 2 2)).2 = none ∧
    (∃ c, (makeSafeMove { freshAI 2 2 with safes := {((0:ℤ),(0:ℤ))} }).2 = some c ∧
      c ∈ ({ freshAI 2 2 with safes := {((0:ℤ),(0:ℤ))} } : AIState).safes \
          ({ freshAI 2 2 with safes := {((0:ℤ),(0:ℤ))} } : AIState).moves_made) :=
  ⟨(claim_C8 (freshAI 2 2)).2.1 (by decide),
   (claim_C8 { freshAI 2 2 with safes := {((0:ℤ),(0:ℤ))} }).2.2 (by decide)⟩

/-! ## Subset inference (claim C3) -/

/-- The body of the inner loop of the subset-inference step, for the ordered
pair `(a, b)`, with the current knowledge list `K` and the queue `acc` of
sentences already queued in this pass. -/
def subsetStep (K : List Sentence) (a : Sentence) (acc : List Sentence) (b : Sentence) :
    List Sentence :=
  if a.cells ≠ b.cells ∧ a.cells ⊆ b.cells then
    if (⟨b.cells \ a.cells, b.count - a.count⟩ : Sentence) ∉ K ∧
        (⟨b.cells \ a.cells, b.count - a.count⟩ : Sentence) ∉ acc then
      acc ++ [⟨b.cells \ a.cells, b.count - a.count⟩]
    else acc
  else acc

/-- `subsetNew` is the double fold of `subsetStep`. -/
theorem subsetNew_eq (K : List Sentence) :
    subsetNew K = K.foldl (fun acc a => K.foldl (subsetStep K a) acc) [] := rfl

/-- `subsetStep` only appends. -/
theorem mem_subsetStep_of_mem {K : List Sentence} {a acc b} {s : Sentence}
    (h : s ∈ acc) : s ∈ subsetStep K a acc b := by
  unfold subsetStep
  split_ifs <;> simp [h]

/-- The inner fold only appends. -/
theorem mem_foldl_subsetStep_of_mem (K : List Sentence) (a : Sentence)
    (l : List Sentence) (acc : List Sentence) (s : Sentence) (h : s ∈ acc) :
    s ∈ l.foldl (subsetStep K a) acc := by
  induction l generalizing acc with
  | nil => exact h
  | cons b l ih => exact ih _ (mem_subsetStep_of_mem h)

/-- The outer fold only appends. -/
theorem mem_outer_of_mem (K : List Sentence) (l : List Sentence) (acc : List Sentence)
    (s : Sentence) (h : s ∈ acc) :
    s ∈ l.foldl (fun acc x => K.foldl (subsetStep K x) acc) acc := by
  induction l generalizing acc with
  | nil => exact h
  | cons a l ih => exact ih _ (mem_foldl_subsetStep_of_mem _ _ _ _ _ h)

/-- What it means to be a legitimate queued sentence of a pass over `K`:
not already in `K` (by value), and the subset-difference of an ordered pair
of sentences of `K` with unequal cell sets. -/
abbrev qOK (K : List Sentence) (s : Sentence) : Prop :=
  s ∉ K ∧ ∃ a, a ∈ K ∧ ∃ b, b ∈ K ∧ a.cells ≠ b.cells ∧ a.cells ⊆ b.cells ∧
    s = ⟨b.cells \ a.cells, b.count - a.count⟩

/-- One `subsetStep` preserves the queue invariant. -/
theorem subsetStep_sound {K : List Sentence} {a acc b} (ha : a ∈ K) (hb : b ∈ K)
    (hacc : acc.Nodup ∧ ∀ s ∈ acc, qOK K s) :
    (subsetStep K a acc b).Nodup ∧ ∀ s ∈ subsetStep K a acc b, qOK K s := by
  unfold subsetStep
  split_ifs with h1 h2
  · constructor
    · exact hacc.1.append (List.nodup_singleton _)
        (fun x hx hx' => h2.2 ((List.mem_singleton.mp hx') ▸ hx))
    · intro s hs
      rcases List.mem_append.mp hs with hs | hs
      · exact hacc.2 s hs
      · rcases List.mem_singleton.mp hs with rfl
        exact ⟨h2.1, a, ha, b, hb, h1.1, h1.2, rfl⟩
  · exact hacc
  · exact hacc

/-- The inner fold preserves the queue invariant. -/
theorem foldl_subsetStep_sound (K : List Sentence) {a : Sentence} (ha : a ∈ K)
    (l : List Sentence) (hl : ∀ b ∈ l, b ∈ K) (acc : List Sentence)
    (hacc : acc.Nodup ∧ ∀ s ∈ acc, qOK K s) :
    (l.foldl (subsetStep K a) acc).Nodup ∧ ∀ s ∈ l.foldl (subsetStep K a) acc, qOK K s := by
  induction l generalizing acc with
  | nil => exact hacc
  | cons b l ih =>
    exact ih (fun x hx => hl x (List.mem_cons_of_mem _ hx)) _
      (subsetStep_sound ha (hl b (List.mem_cons_self _ _)) hacc)

/-- The outer fold preserves the queue invariant. -/
theorem outer_sound (K : List Sentence) (l : List Sentence) (hl : ∀ a ∈ l, a ∈ K)
    (acc : List Sentence) (hacc : acc.Nodup ∧ ∀ s ∈ acc, qOK K s) :
    (l.foldl (fun acc x => K.foldl (subsetStep K x) acc) acc).Nodup ∧
      ∀ s ∈ l.foldl (fun acc x => K.foldl (subsetStep K x) acc) acc, qOK K s := by
  induction l generalizing acc with
  | nil => exact hacc
  | cons a l ih =>
    exact ih (fun x hx => hl x (List.mem_cons_of_mem _ hx)) _
      (foldl_subsetStep_sound K (hl a (List.mem_cons_self _ _)) K (fun _ h => h) _ hacc)

/-- The queued list of a pass has no duplicate sentences. -/
theorem subsetNew_nodup (K : List Sentence) : (subsetNew K).Nodup := by
  rw [subsetNew_eq]
  exact (outer_sound K K (fun _ h => h) [] ⟨List.nodup_nil, by simp⟩).1

/-- Every queued sentence of a pass is new and comes from a subset pair. -/
theorem subsetNew_sound (K : List Sentence) : ∀ s ∈ subsetNew K, qOK K s := by
  rw [subsetNew_eq]
  exact (outer_sound K K (fun _ h => h) [] ⟨List.nodup_nil, by simp⟩).2

/-- `subsetStep` at the very pair `(a, b)` queues the candidate when it is
not already known. -/
theorem subsetStep_complete {K : List Sentence} {a b : Sentence} (acc : List Sentence)
    (h1 : a.cells ≠ b.cells) (h2 : a.cells ⊆ b.cells)
    (h3 : (⟨b.cells \ a.cells, b.count - a.count⟩ : Sentence) ∉ K) :
    (⟨b.cells \ a.cells, b.count - a.count⟩ : Sentence) ∈ subsetStep K a acc b := by
  unfold subsetStep
  split_ifs with hcond hguard
  · exact List.mem_append_right _ (List.mem_singleton_self _)
  · rcases not_and_or.mp hguard with h | h
    · exact absurd h3 h
    · exact not_not.mp h
  · exact absurd ⟨h1, h2⟩ hcond

/-- The inner fold queues the candidate of any of its pairs when the
candidate is not already known. -/
theorem foldl_subsetStep_complete (K : List Sentence) (a : Sentence)
    (l : List Sentence) {b : Sentence} (hb : b ∈ l)
    (h1 : a.cells ≠ b.cells) (h2 : a.cells ⊆ b.cells)
    (h3 : (⟨b.cells \ a.cells, b.count - a.count⟩ : Sentence) ∉ K) (acc : List Sentence) :
    (⟨b.cells \ a.cells, b.count - a.count⟩ : Sentence) ∈ l.foldl (subsetStep K a) acc := by
  induction l generalizing acc with
  | nil => cases hb
  | cons b0 l ih =>
    rcases List.mem_cons.mp hb with rfl | hb'
    · exact mem_foldl_subsetStep_of_mem K a l (subsetStep K a acc b) _
        (subsetStep_complete acc h1 h2 h3)
    · exact ih hb' _

/-- The whole pass queues the candidate of any subset pair of `K` whose
candidate is not already known. -/
theorem subsetNew_complete (K : List Sentence) {a b : Sentence} (ha : a ∈ K) (hb : b ∈ K)
    (h1 : a.cells ≠ b.cells) (h2 : a.cells ⊆ b.cells)
    (h3 : (⟨b.cells \ a.cells, b.count - a.count⟩ : Sentence) ∉ K) :
    (⟨b.cells \ a.cells, b.count - a.count⟩ : Sentence) ∈ subsetNew K := by
  rw [subsetNew_eq]
  have aux : ∀ (l : List Sentence) (acc : List Sentence), a ∈ l →
      (⟨b.cells \ a.cells, b.count - a.count⟩ : Sentence) ∈
        l.foldl (fun acc x => K.foldl (subsetStep K x) acc) acc := by
    intro l
    induction l with
    | nil => intro acc h; cases h
    | cons a0 l ih =>
      intro acc hamem
      rcases List.mem_cons.mp hamem with rfl | ha'
      · exact mem_outer_of_mem K l _ _ (foldl_subsetStep_complete K a K hb h1 h2 h3 acc)
      · exact ih _ ha'
  exact aux K [] ha

/-- Claim C3: in a propagation pass, for every ordered pair `(A, B)` of
sentences of the knowledge collection with unequal cell sets and
`A.cells ⊆ B.cells`, the candidate `(B.cells - A.cells, B.count - A.count)`
ends up queued exactly when no value-equal sentence is already in the
collection; the queue never holds two value-equal candidates, and holds
nothing but such candidates. -/
theorem claim_C3 (K : List Sentence) :
    (∀ a ∈ K, ∀ b ∈ K, a.cells ≠ b.cells → a.cells ⊆ b.cells →
      ((⟨b.cells \ a.cells, b.count - a.count⟩ : Sentence) ∈ subsetNew K ↔
        (⟨b.cells \ a.cells, b.count - a.count⟩ : Sentence) ∉ K)) ∧
    (subsetNew K).Nodup ∧
    (∀ s ∈ subsetNew K, s ∉ K ∧ ∃ a, a ∈ K ∧ ∃ b, b ∈ K ∧
      a.cells ≠ b.cells ∧ a.cells ⊆ b.cells ∧
      s = ⟨b.cells \ a.cells, b.count - a.count⟩) :=
  ⟨fun a ha b hb h1 h2 =>
    ⟨fun hmem => (subsetNew_sound K _ hmem).1,
     fun h3 => subsetNew_complete K ha hb h1 h2 h3⟩,
   subsetNew_nodup K,
   fun s hs => subsetNew_sound K s hs⟩

/-- Witness for C3, at the spec's own example: from the two sentences
over the cells (1,1),(1,2) with count 1 and (1,1),(1,2),(1,3) with count 2,
the pass queues the sentence over (1,3) alone with count 1. -/
theorem claim_C3_witness :
    (⟨{((1:ℤ),(3:ℤ))}, 1⟩ : Sentence) ∈ subsetNew
      [⟨{((1:ℤ),(1:ℤ)), ((1:ℤ),(2:ℤ))}, 1⟩,
       ⟨{((1:ℤ),(1:ℤ)), ((1:ℤ),(2:ℤ)), ((1:ℤ),(3:ℤ))}, 2⟩] := by
  have h := (claim_C3 [⟨{((1:ℤ),(1:ℤ)), ((1:ℤ),(2:ℤ))}, 1⟩,
       ⟨{((1:ℤ),(1:ℤ)), ((1:ℤ),(2:ℤ)), ((1:ℤ),(3:ℤ))}, 2⟩]).1
      ⟨{((1:ℤ),(1:ℤ)), ((1:ℤ),(2:ℤ))}, 1⟩ (by simp)
      ⟨{((1:ℤ),(1:ℤ)), ((1:ℤ),(2:ℤ)), ((1:ℤ),(3:ℤ))}, 2⟩ (by simp)
      (by decide) (by decide)
  have h2 := h.mpr (by decide)
  have he : (⟨{((1:ℤ),(3:ℤ))}, 1⟩ : Sentence) =
      ⟨({((1:ℤ),(1:ℤ)), ((1:ℤ),(2:ℤ)), ((1:ℤ),(3:ℤ))} : Finset Cell) \
        {((1:ℤ),(1:ℤ)), ((1:ℤ),(2:ℤ))}, 2 - 1⟩ := by decide
  rw [he]
  exact h2

/-! ## Batch effect of the per-cell marking loops -/

/-- Marking a list of cells safe in a sentence removes exactly those cells
and keeps the count. -/
theorem foldl_mark_safe_sentence (l : List Cell) (s : Sentence) :
    l.foldl Sentence.mark_safe s = ⟨s.cells \ l.toFinset, s.count⟩ := by
  induction l generalizing s with
  | nil => simp
  | cons c l ih =>
    rw [List.foldl_cons, ih]
    unfold Sentence.mark_safe
    by_cases h : c ∈ s.cells
    · rw [if_pos h, List.toFinset_cons, Finset.sdiff_insert, Finset.erase_sdiff_comm]
    · rw [if_neg h, List.toFinset_cons, Finset.sdiff_insert,
        Finset.erase_eq_of_not_mem (fun hc => h (Finset.mem_sdiff.mp hc).1)]

/-- Marking a list of distinct cells as mines in a sentence removes exactly
those cells and lowers the count by the number of removed cells. -/
theorem foldl_mark_mine_sentence (l : List Cell) (hl : l.Nodup) (s : Sentence) :
    l.foldl Sentence.mark_mine s =
      ⟨s.cells \ l.toFinset, s.count - ((s.cells ∩ l.toFinset).card : ℤ)⟩ := by
  induction l generalizing s with
  | nil => simp
  | cons c l ih =>
    have hcl : c ∉ l := (List.nodup_cons.mp hl).1
    have hln : l.Nodup := (List.nodup_cons.mp hl).2
    rw [List.foldl_cons, ih hln]
    unfold Sentence.mark_mine
    by_cases h : c ∈ s.cells
    · rw [if_pos h]
      have hcells : s.cells.erase c \ l.toFinset = s.cells \ (c :: l).toFinset := by
        rw [List.toFinset_cons, Finset.sdiff_insert, Finset.erase_sdiff_comm]
      have hinter : s.cells.erase c ∩ l.toFinset = s.cells ∩ l.toFinset := by
        rw [Finset.erase_inter, Finset.erase_eq_of_not_mem (by simp [hcl])]
      have hcard : (s.cells ∩ (c :: l).toFinset).card = (s.cells ∩ l.toFinset).card + 1 := by
        rw [List.toFinset_cons, Finset.inter_insert_of_mem h,
          Finset.card_insert_of_not_mem (by simp [hcl])]
      rw [hcells, hinter]
      congr 1
      rw [hcard]
      push_cast
      ring
    · rw [if_neg h]
      have hcells : s.cells \ l.toFinset = s.cells \ (c :: l).toFinset := by
        rw [List.toFinset_cons, Finset.sdiff_insert,
          Finset.erase_eq_of_not_mem (fun hc => h (Finset.mem_sdiff.mp hc).1)]
      have hinter : s.cells ∩ l.toFinset = s.cells ∩ (c :: l).toFinset := by
        rw [List.toFinset_cons, Finset.inter_insert_of_not_mem h]
      rw [hcells, hinter]

/-- Marking a list of cells as mines at solver level adds them to `mines`
and batch-marks every sentence; nothing else changes. -/
theorem foldl_mark_mine_state (l : List Cell) (st : AIState) :
    l.foldl AIState.mark_mine st =
      { st with mines := st.mines ∪ l.toFinset,
                knowledge := st.knowledge.map (fun s => l.foldl Sentence.mark_mine s) } := by
  induction l generalizing st with
  | nil => simp
  | cons c l ih =>
    rw [List.foldl_cons, ih]
    simp only [AIState.mark_mine]
    congr 1
    · rw [List.toFinset_cons, Finset.insert_union, Finset.union_insert]
    · rw [List.map_map]
      rfl

/-- Marking a list of cells safe at solver level adds them to `safes`
and batch-marks every sentence; nothing else changes. -/
theorem foldl_mark_safe_state (l : List Cell) (st : AIState) :
    l.foldl AIState.mark_safe st =
      { st with safes := st.safes ∪ l.toFinset,
                knowledge := st.knowledge.map (fun s => l.foldl Sentence.mark_safe s) } := by
  induction l generalizing st with
  | nil => simp
  | cons c l ih =>
    rw [List.foldl_cons, ih]
    simp only [AIState.mark_safe]
    congr 1
    · rw [List.toFinset_cons, Finset.insert_union, Finset.union_insert]
    · rw [List.map_map]
      rfl

/-- Net effect of `for cell in cs: self.mark_mine(cell)` over a finite set. -/
theorem markMineFold (cs : Finset Cell) (st : AIState) :
    (cellList cs).foldl AIState.mark_mine st =
      { st with mines := st.mines ∪ cs,
                knowledge := st.knowledge.map
                  (fun s => ⟨s.cells \ cs, s.count - ((s.cells ∩ cs).card : ℤ)⟩) } := by
  rw [foldl_mark_mine_state]
  have hfun : (fun s => (cellList cs).foldl Sentence.mark_mine s) =
      (fun s : Sentence => (⟨s.cells \ cs, s.count - ((s.cells ∩ cs).card : ℤ)⟩ : Sentence)) := by
    funext s
    rw [foldl_mark_mine_sentence _ (cellList_nodup cs), cellList_toFinset]
  rw [hfun, cellList_toFinset]

/-- Net effect of `for cell in cs: self.mark_safe(cell)` over a finite set. -/
theorem markSafeFold (cs : Finset Cell) (st : AIState) :
    (cellList cs).foldl AIState.mark_safe st =
      { st with safes := st.safes ∪ cs,
                knowledge := st.knowledge.map
                  (fun s => ⟨s.cells \ cs, s.count⟩) } := by
  rw [foldl_mark_safe_state]
  have hfun : (fun s => (cellList cs).foldl Sentence.mark_safe s) =
      (fun s : Sentence => (⟨s.cells \ cs, s.count⟩ : Sentence)) := by
    funext s
    rw [foldl_mark_safe_sentence, cellList_toFinset]
  rw [hfun, cellList_toFinset]

/-! ## Membership in the collected mark sets -/

/-- Cells collected by a guarded union fold over the knowledge list. -/
theorem mem_foldl_union (p : Sentence → Prop) [DecidablePred p]
    (K : List Sentence) (acc : Finset Cell) (c : Cell) :
    (c ∈ K.foldl (fun acc s => if p s then acc ∪ s.cells else acc) acc ↔
      c ∈ acc ∨ ∃ s ∈ K, p s ∧ c ∈ s.cells) := by
  induction K generalizing acc with
  | nil => simp
  | cons s K ih =>
    rw [List.foldl_cons]
    by_cases hp : p s
    · rw [if_pos hp, ih]
      simp only [Finset.mem_union, List.mem_cons]
      constructor
      · rintro (⟨h | h⟩ | ⟨t, ht, hpt, hct⟩)
        · exact Or.inl h
        · exact Or.inr ⟨s, Or.inl rfl, hp, h⟩
        · exact Or.inr ⟨t, Or.inr ht, hpt, hct⟩
      · rintro (h | ⟨t, (rfl | ht), hpt, hct⟩)
        · exact Or.inl (Or.inl h)
        · exact Or.inl (Or.inr hct)
        · exact Or.inr ⟨t, ht, hpt, hct⟩
    · rw [if_neg hp, ih]
      constructor
      · rintro (h | ⟨t, ht, hpt, hct⟩)
        · exact Or.inl h
        · exact Or.inr ⟨t, List.mem_cons_of_mem _ ht, hpt, hct⟩
      · rintro (h | ⟨t, ht, hpt, hct⟩)
        · exact Or.inl h
        · rcases List.mem_cons.mp ht with rfl | ht'
          · exact absurd hpt hp
          · exact Or.inr ⟨t, ht', hpt, hct⟩

/-- The cells the mine-extraction phase collects. -/
theorem mem_minesToBeMarked (st : AIState) (c : Cell) :
    c ∈ minesToBeMarked st ↔
      (∃ s ∈ st.knowledge, (s.cells.card : ℤ) = s.count ∧ c ∈ s.cells) ∧ c ∉ st.mines := by
  unfold minesToBeMarked
  rw [Finset.mem_sdiff, mem_foldl_union]
  simp

/-- The cells the safe-extraction phase collects. -/
theorem mem_safesToBeMarked (st : AIState) (c : Cell) :
    c ∈ safesToBeMarked st ↔
      (∃ s ∈ st.knowledge, s.count = 0 ∧ c ∈ s.cells) ∧ c ∉ st.safes := by
  unfold safesToBeMarked
  rw [Finset.mem_sdiff, mem_foldl_union]
  simp

/-! ## The three phases of a propagation pass, named -/

/-- State after the mine-extraction phase of a pass. -/
def passMid (st : AIState) : AIState :=
  (cellList (minesToBeMarked st)).foldl AIState.mark_mine st

/-- State after removing the `count == 0` sentences. -/
def passMid2 (st : AIState) : AIState :=
  { passMid st with
    knowledge := (passMid st).knowledge.filter (fun s => ¬ s.count = 0) }

/-- State after the safe-extraction phase. -/
def passMid3 (st : AIState) : AIState :=
  (cellList (safesToBeMarked (passMid st))).foldl AIState.mark_safe (passMid2 st)

/-- State at the end of a pass, after subset inference. -/
def passEnd (st : AIState) : AIState :=
  { passMid3 st with
    knowledge := (passMid3 st).knowledge ++ subsetNew (passMid3 st).knowledge }

/-- `onePass` ends a pass at `passEnd`. -/
theorem onePass_fst (st : AIState) : (onePass st).1 = passEnd st := rfl

/-- The `loop_again` flag of a pass. -/
theorem onePass_snd (st : AIState) :
    (onePass st).2 = (decide (minesToBeMarked st ≠ ∅) ||
      decide (safesToBeMarked (passMid st) ≠ ∅) ||
      decide (subsetNew (passMid3 st).knowledge ≠ [])) := rfl

/-- Explicit form of the state after the mine-extraction phase. -/
theorem passMid_eq (st : AIState) :
    passMid st =
      { st with mines := st.mines ∪ minesToBeMarked st,
                knowledge := st.knowledge.map
                  (fun s => ⟨s.cells \ minesToBeMarked st,
                    s.count - ((s.cells ∩ minesToBeMarked st).card : ℤ)⟩) } := by
  rw [passMid, markMineFold]

/-- Explicit form of the state after the safe-extraction phase. -/
theorem passMid3_eq (st : AIState) :
    passMid3 st =
      { passMid2 st with
        safes := (passMid2 st).safes ∪ safesToBeMarked (passMid st),
        knowledge := (passMid2 st).knowledge.map
          (fun s => ⟨s.cells \ safesToBeMarked (passMid st), s.count⟩) } := by
  rw [passMid3, markSafeFold]

/-! ## Sentence membership helpers -/

/-- A cell of a sentence after `mark_safe` was a cell before, other than the
marked one. -/
theorem Sentence.mem_mark_safe {s : Sentence} {cell c : Cell}
    (h : c ∈ (s.mark_safe cell).cells) : c ∈ s.cells ∧ c ≠ cell := by
  unfold Sentence.mark_safe at h
  split_ifs at h
  · exact ⟨Finset.mem_of_mem_erase h, Finset.ne_of_mem_erase h⟩
  · rcases eq_or_ne c cell with rfl | hne
    · exact absurd h (by assumption)
    · exact ⟨h, hne⟩

/-- A cell of a sentence after `mark_mine` was a cell before, other than the
marked one. -/
theorem Sentence.mem_mark_mine {s : Sentence} {cell c : Cell}
    (h : c ∈ (s.mark_mine cell).cells) : c ∈ s.cells ∧ c ≠ cell := by
  unfold Sentence.mark_mine at h
  split_ifs at h
  · exact ⟨Finset.mem_of_mem_erase h, Finset.ne_of_mem_erase h⟩
  · rcases eq_or_ne c cell with rfl | hne
    · exact absurd h (by assumption)
    · exact ⟨h, hne⟩

/-- Every unexplored neighbor lies in the grid and is unclassified. -/
theorem find_unexplored_spec (st : AIState) (cell : Cell) :
    ∀ c ∈ st.find_unexplored_neighbors cell,
      (0 ≤ c.1 ∧ c.1 < st.height ∧ 0 ≤ c.2 ∧ c.2 < st.width) ∧
        c ∉ st.moves_made ∪ st.safes ∪ st.mines := by
  have aux : ∀ (l : List (ℤ × ℤ)) (acc : Finset Cell),
      (∀ c ∈ acc,
        (0 ≤ c.1 ∧ c.1 < st.height ∧ 0 ≤ c.2 ∧ c.2 < st.width) ∧
          c ∉ st.moves_made ∪ st.safes ∪ st.mines) →
      ∀ c ∈ l.foldl
        (fun neighbors d =>
          if (0 ≤ (cell.1 + d.1) ∧ (cell.1 + d.1) < st.height ∧
              0 ≤ (cell.2 + d.2) ∧ (cell.2 + d.2) < st.width)
              ∧ ((cell.1 + d.1, cell.2 + d.2) : Cell) ∉ st.moves_made ∪ st.safes ∪ st.mines
          then insert ((cell.1 + d.1, cell.2 + d.2) : Cell) neighbors else neighbors) acc,
        (0 ≤ c.1 ∧ c.1 < st.height ∧ 0 ≤ c.2 ∧ c.2 < st.width) ∧
          c ∉ st.moves_made ∪ st.safes ∪ st.mines := by
    intro l
    induction l with
    | nil => intro acc hacc; exact hacc
    | cons d l ih =>
      intro acc hacc
      rw [List.foldl_cons]
      apply ih
      intro c hc
      split_ifs at hc with hcond
      · rcases Finset.mem_insert.mp hc with rfl | hc'
        · exact hcond
        · exact hacc c hc'
      · exact hacc c hc
  exact aux _ ∅ (by simp)

/-! ## The freshness invariant: sentences never mention classified cells -/

/-- Every cell of every sentence of the knowledge collection is neither in
`safes` nor in `mines`. -/
def KnowledgeFresh (st : AIState) : Prop :=
  ∀ s ∈ st.knowledge, ∀ c ∈ s.cells, c ∉ st.safes ∧ c ∉ st.mines

/-- Fields of `passEnd` other than the knowledge list. -/
theorem passEnd_moves (st : AIState) : (passEnd st).moves_made = st.moves_made := by
  simp [passEnd, passMid3_eq, passMid2, passMid_eq]

/-- The grid height never changes during a pass. -/
theorem passEnd_height (st : AIState) : (passEnd st).height = st.height := by
  simp [passEnd, passMid3_eq, passMid2, passMid_eq]

/-- The grid width never changes during a pass. -/
theorem passEnd_width (st : AIState) : (passEnd st).width = st.width := by
  simp [passEnd, passMid3_eq, passMid2, passMid_eq]

/-- A pass adds exactly the collected mines to `mines`. -/
theorem passEnd_mines (st : AIState) :
    (passEnd st).mines = st.mines ∪ minesToBeMarked st := by
  simp [passEnd, passMid3_eq, passMid2, passMid_eq]

/-- A pass adds exactly the collected safes to `safes`. -/
theorem passEnd_safes (st : AIState) :
    (passEnd st).safes = st.safes ∪ safesToBeMarked (passMid st) := by
  simp [passEnd, passMid3_eq, passMid2, passMid_eq]

/-- The collected mines of a pass are unclassified cells. -/
theorem mtm_spec {st : AIState} (hf : KnowledgeFresh st) :
    ∀ c ∈ minesToBeMarked st, c ∉ st.safes ∧ c ∉ st.mines := by
  intro c hc
  rcases (mem_minesToBeMarked _ _).mp hc with ⟨⟨s, hs, _, hcs⟩, hnm⟩
  exact ⟨(hf s hs c hcs).1, hnm⟩

/-- The mine-extraction phase keeps the freshness invariant. -/
theorem passMid_fresh {st : AIState} (h : KnowledgeFresh st) :
    KnowledgeFresh (passMid st) := by
  rw [passMid_eq]
  intro s hs c hc
  rcases List.mem_map.mp hs with ⟨t, ht, rfl⟩
  rcases Finset.mem_sdiff.mp hc with ⟨hct, hcm⟩
  refine ⟨(h t ht c hct).1, ?_⟩
  intro hmem
  rcases Finset.mem_union.mp hmem with h1 | h1
  · exact (h t ht c hct).2 h1
  · exact hcm h1

/-- Removing sentences keeps the freshness invariant. -/
theorem passMid2_fresh {st : AIState} (h : KnowledgeFresh (passMid st)) :
    KnowledgeFresh (passMid2 st) := by
  intro s hs c hc
  exact h s (List.mem_of_mem_filter hs) c hc

/-- The collected safes of a pass are unclassified cells of the mid state. -/
theorem stm_spec {st : AIState} (hf : KnowledgeFresh (passMid st)) :
    ∀ c ∈ safesToBeMarked (passMid st),
      c ∉ (passMid st).safes ∧ c ∉ (passMid st).mines := by
  intro c hc
  rcases (mem_safesToBeMarked _ _).mp hc with ⟨⟨s, hs, _, hcs⟩, hns⟩
  exact ⟨hns, (hf s hs c hcs).2⟩

/-- The safe-extraction phase keeps the freshness invariant. -/
theorem passMid3_fresh {st : AIState} (hf : KnowledgeFresh (passMid st)) :
    KnowledgeFresh (passMid3 st) := by
  have h2 := passMid2_fresh hf
  rw [passMid3_eq]
  intro s hs c hc
  rcases List.mem_map.mp hs with ⟨t, ht, rfl⟩
  rcases Finset.mem_sdiff.mp hc with ⟨hct, hcm⟩
  refine ⟨?_, (h2 t ht c hct).2⟩
  intro hmem
  rcases Finset.mem_union.mp hmem with h1 | h1
  · exact (h2 t ht c hct).1 h1
  · exact hcm h1

/-- A whole pass keeps the freshness invariant. -/
theorem passEnd_fresh {st : AIState} (hf : KnowledgeFresh st) :
    KnowledgeFresh (passEnd st) := by
  have h3 := passMid3_fresh (passMid_fresh hf)
  intro s hs c hc
  rcases List.mem_append.mp hs with hs' | hs'
  · exact h3 s hs' c hc
  · rcases subsetNew_sound _ s hs' with ⟨_, a, ha, b, hb, _, _, rfl⟩
    rcases Finset.mem_sdiff.mp hc with ⟨hcb, _⟩
    exact h3 b hb c hcb

/-- A whole pass keeps `safes` and `mines` disjoint. -/
theorem passEnd_disjoint {st : AIState} (hf : KnowledgeFresh st)
    (hd : Disjoint st.safes st.mines) :
    Disjoint (passEnd st).safes (passEnd st).mines := by
  rw [passEnd_safes, passEnd_mines, Finset.disjoint_left]
  have hstm := stm_spec (passMid_fresh hf)
  have hmtm := mtm_spec hf
  intro a ha hb
  rcases Finset.mem_union.mp ha with ha' | ha'
  · rcases Finset.mem_union.mp hb with hb' | hb'
    · exact Finset.disjoint_left.mp hd ha' hb'
    · exact (hmtm a hb').1 ha'
  · have := (hstm a ha').2
    rw [passMid_eq] at this
    exact this hb

/-- A pass never shrinks `safes`. -/
theorem passEnd_safes_mono (st : AIState) : st.safes ⊆ (passEnd st).safes := by
  rw [passEnd_safes]
  exact Finset.subset_union_left

/-- A pass never shrinks `mines`. -/
theorem passEnd_mines_mono (st : AIState) : st.mines ⊆ (passEnd st).mines := by
  rw [passEnd_mines]
  exact Finset.subset_union_left

/-! ## Invariants through the propagation loop -/

/-- When the loop exits within its fuel, `safes` and `mines` only grew and
the other fields are untouched. -/
theorem propagate_some_mono {fuel : ℕ} {st st' : AIState}
    (h : propagate fuel st = some st') :
    st.safes ⊆ st'.safes ∧ st.mines ⊆ st'.mines ∧
      st'.moves_made = st.moves_made ∧ st'.height = st.height ∧ st'.width = st.width := by
  induction fuel generalizing st with
  | zero => cases h
  | succ n ih =>
    have h' : (if (onePass st).2 then propagate n (onePass st).1
        else some (onePass st).1) = some st' := h
    by_cases hb : (onePass st).2 = true
    · rw [if_pos hb] at h'
      have hrec := ih h'
      rw [onePass_fst] at hrec
      exact ⟨(passEnd_safes_mono st).trans hrec.1,
        (passEnd_mines_mono st).trans hrec.2.1,
        hrec.2.2.1.trans (passEnd_moves st),
        hrec.2.2.2.1.trans (passEnd_height st),
        hrec.2.2.2.2.trans (passEnd_width st)⟩
    · rw [if_neg hb] at h'
      cases h'
      rw [onePass_fst]
      exact ⟨passEnd_safes_mono st, passEnd_mines_mono st,
        passEnd_moves st, passEnd_height st, passEnd_width st⟩

/-- When the loop exits within its fuel, freshness and disjointness are
preserved. -/
theorem propagate_fresh_disjoint {fuel : ℕ} {st st' : AIState}
    (h : propagate fuel st = some st')
    (hf : KnowledgeFresh st) (hd : Disjoint st.safes st.mines) :
    KnowledgeFresh st' ∧ Disjoint st'.safes st'.mines := by
  induction fuel generalizing st with
  | zero => cases h
  | succ n ih =>
    have h' : (if (onePass st).2 then propagate n (onePass st).1
        else some (onePass st).1) = some st' := h
    by_cases hb : (onePass st).2 = true
    · rw [if_pos hb] at h'
      refine ih h' ?_ ?_
      · rw [onePass_fst]; exact passEnd_fresh hf
      · rw [onePass_fst]; exact passEnd_disjoint hf hd
    · rw [if_neg hb] at h'
      cases h'
      rw [onePass_fst]
      exact ⟨passEnd_fresh hf, passEnd_disjoint hf hd⟩

/-! ## Invariants through one `add_knowledge` call -/

/-- Explicit form of the opening of `add_knowledge`. -/
theorem ingestStart_fields (st : AIState) (cell : Cell) :
    ingestStart st cell =
      { st with moves_made := insert cell st.moves_made,
                safes := insert cell st.safes,
                knowledge := st.knowledge.map (fun s => s.mark_safe cell) } := rfl

/-- The opening of `add_knowledge` keeps the freshness invariant. -/
theorem ingestStart_fresh {st : AIState} {cell : Cell} (hf : KnowledgeFresh st) :
    KnowledgeFresh (ingestStart st cell) := by
  rw [ingestStart_fields]
  intro s hs c hc
  rcases List.mem_map.mp hs with ⟨t, ht, rfl⟩
  rcases Sentence.mem_mark_safe hc with ⟨hct, hne⟩
  refine ⟨?_, (hf t ht c hct).2⟩
  intro hmem
  rcases Finset.mem_insert.mp hmem with rfl | h1
  · exact hne rfl
  · exact (hf t ht c hct).1 h1

/-- The opening of `add_knowledge` keeps disjointness, provided the revealed
cell is not a known mine. -/
theorem ingestStart_disjoint {st : AIState} {cell : Cell}
    (hd : Disjoint st.safes st.mines) (hm : cell ∉ st.mines) :
    Disjoint (ingestStart st cell).safes (ingestStart st cell).mines := by
  rw [ingestStart_fields, Finset.disjoint_left]
  intro a ha hb
  rcases Finset.mem_insert.mp ha with rfl | ha'
  · exact hm hb
  · exact Finset.disjoint_left.mp hd ha' hb

/-- One `add_knowledge` call on a state whose sentences avoid classified
cells and whose `safes` and `mines` are disjoint, revealing a cell that is
not a known mine: the call preserves both invariants and only grows `safes`
and `mines`. -/
theorem addKnowledge_preserves {fuel : ℕ} {st : AIState} {cell : Cell} {count : ℤ}
    {st' : AIState} (h : addKnowledge fuel st cell count = some st')
    (hf : KnowledgeFresh st) (hd : Disjoint st.safes st.mines) (hm : cell ∉ st.mines) :
    KnowledgeFresh st' ∧ Disjoint st'.safes st'.mines ∧
      st.safes ⊆ st'.safes ∧ st.mines ⊆ st'.mines := by
  have hf2 : KnowledgeFresh (ingestStart st cell) := ingestStart_fresh hf
  have hd2 : Disjoint (ingestStart st cell).safes (ingestStart st cell).mines :=
    ingestStart_disjoint hd hm
  have hs2 : st.safes ⊆ (ingestStart st cell).safes := by
    rw [ingestStart_fields]; exact Finset.subset_insert _ _
  have hm2 : st.mines ⊆ (ingestStart st cell).mines := by
    rw [ingestStart_fields]
  have hun := find_unexplored_spec (ingestStart st cell) cell
  have h' : propagate fuel
      (if count = 0 then
        (cellList ((ingestStart st cell).find_unexplored_neighbors cell)).foldl
          AIState.mark_safe (ingestStart st cell)
      else if (((ingestStart st cell).find_unexplored_neighbors cell).card : ℤ) ≤ count then
        (cellList ((ingestStart st cell).find_unexplored_neighbors cell)).foldl
          AIState.mark_mine (ingestStart st cell)
      else { ingestStart st cell with
             knowledge := (ingestStart st cell).knowledge ++
               [⟨(ingestStart st cell).find_unexplored_neighbors cell, count⟩] })
      = some st' := h
  split_ifs at h' with h0 h1
  · rw [markSafeFold] at h'
    have hf3 : KnowledgeFresh
        { ingestStart st cell with
          safes := (ingestStart st cell).safes ∪
            (ingestStart st cell).find_unexplored_neighbors cell,
          knowledge := (ingestStart st cell).knowledge.map
            (fun s => ⟨s.cells \ (ingestStart st cell).find_unexplored_neighbors cell,
              s.count⟩) } := by
      intro s hs c hc
      rcases List.mem_map.mp hs with ⟨t, ht, rfl⟩
      rcases Finset.mem_sdiff.mp hc with ⟨hct, hcu⟩
      refine ⟨?_, (hf2 t ht c hct).2⟩
      intro hmem
      rcases Finset.mem_union.mp hmem with h2 | h2
      · exact (hf2 t ht c hct).1 h2
      · exact hcu h2
    have hd3 : Disjoint
        ((ingestStart st cell).safes ∪
          (ingestStart st cell).find_unexplored_neighbors cell)
        (ingestStart st cell).mines := by
      rw [Finset.disjoint_left]
      intro a ha hb
      rcases Finset.mem_union.mp ha with ha' | ha'
      · exact Finset.disjoint_left.mp hd2 ha' hb
      · exact (hun a ha').2 (Finset.mem_union_right _ hb)
    have hres := propagate_fresh_disjoint h' hf3 hd3
    have hmono := propagate_some_mono h'
    exact ⟨hres.1, hres.2,
      hs2.trans (Finset.subset_union_left.trans hmono.1),
      hm2.trans hmono.2.1⟩
  · rw [markMineFold] at h'
    have hf3 : KnowledgeFresh
        { ingestStart st cell with
          mines := (ingestStart st cell).mines ∪
            (ingestStart st cell).find_unexplored_neighbors cell,
          knowledge := (ingestStart st cell).knowledge.map
            (fun s => ⟨s.cells \ (ingestStart st cell).find_unexplored_neighbors cell,
              s.count - ((s.cells ∩ (ingestStart st cell).find_unexplored_neighbors cell).card : ℤ)⟩) } := by
      intro s hs c hc
      rcases List.mem_map.mp hs with ⟨t, ht, rfl⟩
      rcases Finset.mem_sdiff.mp hc with ⟨hct, hcu⟩
      refine ⟨(hf2 t ht c hct).1, ?_⟩
      intro hmem
      rcases Finset.mem_union.mp hmem with h2 | h2
      · exact (hf2 t ht c hct).2 h2
      · exact hcu h2
    have hd3 : Disjoint (ingestStart st cell).safes
        ((ingestStart st cell).mines ∪
          (ingestStart st cell).find_unexplored_neighbors cell) := by
      rw [Finset.disjoint_left]
      intro a ha hb
      rcases Finset.mem_union.mp hb with hb' | hb'
      · exact Finset.disjoint_left.mp hd2 ha hb'
      · exact (hun a hb').2 (Finset.mem_union_left _ (Finset.mem_union_right _ ha))
    have hres := propagate_fresh_disjoint h' hf3 hd3
    have hmono := propagate_some_mono h'
    exact ⟨hres.1, hres.2,
      hs2.trans hmono.1,
      hm2.trans (Finset.subset_union_left.trans hmono.2.1)⟩
  · have hf3 : KnowledgeFresh
        { ingestStart st cell with
          knowledge := (ingestStart st cell).knowledge ++
            [⟨(ingestStart st cell).find_unexplored_neighbors cell, count⟩] } := by
      intro s hs c hc
      rcases List.mem_append.mp hs with hs' | hs'
      · exact hf2 s hs' c hc
      · rcases List.mem_singleton.mp hs' with rfl
        have := (hun c hc).2
        constructor
        · intro hmem
          exact this (Finset.mem_union_left _ (Finset.mem_union_right _ hmem))
        · intro hmem
          exact this (Finset.mem_union_right _ hmem)
    have hres := propagate_fresh_disjoint h' hf3 hd2
    have hmono := propagate_some_mono h'
    exact ⟨hres.1, hres.2, hs2.trans hmono.1, hm2.trans hmono.2.1⟩

/-- Whether every observation of a call sequence reveals a cell that is not
already a known mine when its call happens (fuel threaded as in `runSeq`). -/
def validCalls (fuel : ℕ) : AIState → List (Cell × ℤ) → Bool
  | _, [] => true
  | st, (c, n) :: rest =>
    decide (c ∉ st.mines) &&
      (match addKnowledge fuel st c n with
       | none => true
       | some st' => validCalls fuel st' rest)

/-- One `add_knowledge` call never removes members from `safes` or `mines`,
with no well-formedness assumption at all. -/
theorem addKnowledge_mono {fuel : ℕ} {st : AIState} {cell : Cell} {count : ℤ}
    {st' : AIState} (h : addKnowledge fuel st cell count = some st') :
    st.safes ⊆ st'.safes ∧ st.mines ⊆ st'.mines := by
  have hs2 : st.safes ⊆ (ingestStart st cell).safes := by
    rw [ingestStart_fields]
    exact Finset.subset_insert _ _
  have hm2 : st.mines ⊆ (ingestStart st cell).mines := by
    rw [ingestStart_fields]
  have h' : propagate fuel
      (if count = 0 then
        (cellList ((ingestStart st cell).find_unexplored_neighbors cell)).foldl
          AIState.mark_safe (ingestStart st cell)
      else if (((ingestStart st cell).find_unexplored_neighbors cell).card : ℤ) ≤ count then
        (cellList ((ingestStart st cell).find_unexplored_neighbors cell)).foldl
          AIState.mark_mine (ingestStart st cell)
      else { ingestStart st cell with
             knowledge := (ingestStart st cell).knowledge ++
               [⟨(ingestStart st cell).find_unexplored_neighbors cell, count⟩] })
      = some st' := h
  split_ifs at h' with h0 h1
  · rw [markSafeFold] at h'
    have hmono := propagate_some_mono h'
    exact ⟨hs2.trans (Finset.subset_union_left.trans hmono.1), hm2.trans hmono.2.1⟩
  · rw [markMineFold] at h'
    have hmono := propagate_some_mono h'
    exact ⟨hs2.trans hmono.1, hm2.trans (Finset.subset_union_left.trans hmono.2.1)⟩
  · have hmono := propagate_some_mono h'
    exact ⟨hs2.trans hmono.1, hm2.trans hmono.2.1⟩

/-- Across any sequence of `add_knowledge` calls that converges within its
fuel, `safes` and `mines` only gain members — unconditionally. -/
theorem runSeq_mono {fuel : ℕ} {st st' : AIState} {calls : List (Cell × ℤ)}
    (h : runSeq fuel st calls = some st') :
    st.safes ⊆ st'.safes ∧ st.mines ⊆ st'.mines := by
  induction calls generalizing st with
  | nil =>
    have h' : some st = some st' := h
    cases h'
    exact ⟨Finset.Subset.refl _, Finset.Subset.refl _⟩
  | cons p rest ih =>
    obtain ⟨c, n⟩ := p
    have h' : (match addKnowledge fuel st c n with
        | none => none
        | some st2 => runSeq fuel st2 rest) = some st' := h
    rcases hk : addKnowledge fuel st c n with _ | st2
    · rw [hk] at h'
      cases h'
    · rw [hk] at h'
      have hstep := addKnowledge_mono hk
      have hrec := ih h'
      exact ⟨hstep.1.trans hrec.1, hstep.2.trans hrec.2⟩

/-- Freshness and disjointness persist across a converging sequence in which
no call reveals a known mine. -/
theorem runSeq_preserves {fuel : ℕ} {st st' : AIState} {calls : List (Cell × ℤ)}
    (hf : KnowledgeFresh st) (hd : Disjoint st.safes st.mines)
    (hv : validCalls fuel st calls = true) (h : runSeq fuel st calls = some st') :
    Disjoint st'.safes st'.mines ∧ KnowledgeFresh st' := by
  induction calls generalizing st with
  | nil =>
    have h' : some st = some st' := h
    cases h'
    exact ⟨hd, hf⟩
  | cons p rest ih =>
    obtain ⟨c, n⟩ := p
    have h' : (match addKnowledge fuel st c n with
        | none => none
        | some st2 => runSeq fuel st2 rest) = some st' := h
    have hv' : (decide (c ∉ st.mines) &&
        (match addKnowledge fuel st c n with
         | none => true
         | some st2 => validCalls fuel st2 rest)) = true := hv
    rcases hk : addKnowledge fuel st c n with _ | st2
    · rw [hk] at h'
      cases h'
    · rw [hk] at h' hv'
      simp only [Bool.and_eq_true, decide_eq_true_eq] at hv'
      obtain ⟨hm, hv2⟩ := hv'
      have hstep := addKnowledge_preserves hk hf hd hm
      exact ih hstep.1 hstep.2.1 hv2 h'

/-- Claim C4 as amended: across any sequence of `add_knowledge` calls that
converges within its fuel, `safes` and `mines` only gain members,
unconditionally; and provided the starting state's sentences avoid
classified cells with `safes` and `mines` disjoint (a fresh solver in
particular) and no call reveals a cell already in `mines`, the two sets
also remain disjoint after every call (the invariants persist, so every
prefix of the sequence is again an instance). -/
theorem claim_C4_amended (fuel : ℕ) (st : AIState) (calls : List (Cell × ℤ))
    (st' : AIState) (h : runSeq fuel st calls = some st') :
    (st.safes ⊆ st'.safes ∧ st.mines ⊆ st'.mines) ∧
    (KnowledgeFresh st → Disjoint st.safes st.mines →
      validCalls fuel st calls = true →
      Disjoint st'.safes st'.mines ∧ KnowledgeFresh st') :=
  ⟨runSeq_mono h, fun hf hd hv => runSeq_preserves hf hd hv h⟩

/-- The state the C4 witness sequence converges to. -/
def c4wFinal : AIState := (runSeq 10 (freshAI 3 3) c1Calls).getD (freshAI 0 0)

/-- The state the mine-revealing two-call sequence converges to. -/
def c4wBad : AIState :=
  (runSeq 10 (freshAI 3 3) [(((0:ℤ),(0:ℤ)), 3), (((0:ℤ),(1:ℤ)), 0)]).getD (freshAI 0 0)

/-- Witness for the amended C4: on the end-to-end scenario sequence both
conjuncts are discharged concretely, and unconditional monotonicity also
applies to the mine-revealing two-call sequence (which fails the
disjointness proviso). -/
theorem claim_C4_amended_witness :
    ((freshAI 3 3).safes ⊆ c4wFinal.safes ∧ (freshAI 3 3).mines ⊆ c4wFinal.mines) ∧
    (Disjoint c4wFinal.safes c4wFinal.mines ∧ KnowledgeFresh c4wFinal) ∧
    ((freshAI 3 3).safes ⊆ c4wBad.safes ∧ (freshAI 3 3).mines ⊆ c4wBad.mines) := by
  have hs1 : (runSeq 10 (freshAI 3 3) c1Calls).isSome = true := by decide
  have h1 : runSeq 10 (freshAI 3 3) c1Calls = some c4wFinal := by
    unfold c4wFinal
    cases ho : runSeq 10 (freshAI 3 3) c1Calls with
    | none => rw [ho] at hs1; cases hs1
    | some v => rfl
  have hs2 : (runSeq 10 (freshAI 3 3)
      [(((0:ℤ),(0:ℤ)), 3), (((0:ℤ),(1:ℤ)), 0)]).isSome = true := by decide
  have h2 : runSeq 10 (freshAI 3 3) [(((0:ℤ),(0:ℤ)), 3), (((0:ℤ),(1:ℤ)), 0)] =
      some c4wBad := by
    unfold c4wBad
    cases ho : runSeq 10 (freshAI 3 3) [(((0:ℤ),(0:ℤ)), 3), (((0:ℤ),(1:ℤ)), 0)] with
    | none => rw [ho] at hs2; cases hs2
    | some v => rfl
  have t1 := claim_C4_amended 10 (freshAI 3 3) c1Calls c4wFinal h1
  have t2 := claim_C4_amended 10 (freshAI 3 3)
    [(((0:ℤ),(0:ℤ)), 3), (((0:ℤ),(1:ℤ)), 0)] c4wBad h2
  exact ⟨t1.1, t1.2 (by intro s hs'; cases hs') (by simp [freshAI]) (by decide), t2.1⟩

/-! ## The operation-boundary invariant of the solver (claim C10) -/

/-- The cell lies inside the grid of the given solver state. -/
def inGridOf (st : AIState) (c : Cell) : Prop :=
  0 ≤ c.1 ∧ c.1 < st.height ∧ 0 ≤ c.2 ∧ c.2 < st.width

/-- Every cell of every sentence lies inside the grid. -/
def SentencesInGrid (st : AIState) : Prop :=
  ∀ s ∈ st.knowledge, ∀ c ∈ s.cells, inGridOf st c

/-- The invariant of claim C10: sentence cells are in bounds and
unclassified, and moves are only made on safe cells. -/
def coreInvariant (st : AIState) : Prop :=
  SentencesInGrid st ∧ KnowledgeFresh st ∧ st.moves_made ⊆ st.safes

/-- Being in grid only depends on the grid dimensions. -/
theorem inGridOf_congr {st st' : AIState} (hh : st'.height = st.height)
    (hw : st'.width = st.width) (c : Cell) : inGridOf st' c ↔ inGridOf st c := by
  unfold inGridOf
  rw [hh, hw]

/-- A pass keeps all sentence cells inside the grid. -/
theorem passEnd_grid {st : AIState} (hg : SentencesInGrid st) :
    SentencesInGrid (passEnd st) := by
  have hg1 : ∀ s ∈ (passMid st).knowledge, ∀ c ∈ s.cells, inGridOf st c := by
    rw [passMid_eq]
    intro s hs c hc
    rcases List.mem_map.mp hs with ⟨t, ht, rfl⟩
    exact hg t ht c (Finset.mem_sdiff.mp hc).1
  have hg2 : ∀ s ∈ (passMid2 st).knowledge, ∀ c ∈ s.cells, inGridOf st c :=
    fun s hs c hc => hg1 s (List.mem_of_mem_filter hs) c hc
  have hg3 : ∀ s ∈ (passMid3 st).knowledge, ∀ c ∈ s.cells, inGridOf st c := by
    rw [passMid3_eq]
    intro s hs c hc
    rcases List.mem_map.mp hs with ⟨t, ht, rfl⟩
    exact hg2 t ht c (Finset.mem_sdiff.mp hc).1
  intro s hs c hc
  rw [inGridOf_congr (passEnd_height st) (passEnd_width st)]
  rcases List.mem_append.mp hs with hs' | hs'
  · exact hg3 s hs' c hc
  · rcases subsetNew_sound _ s hs' with ⟨_, a, _, b, hb, _, _, rfl⟩
    exact hg3 b hb c (Finset.mem_sdiff.mp hc).1

/-- The loop keeps the C10 invariant. -/
theorem propagate_core {fuel : ℕ} {st st' : AIState}
    (h : propagate fuel st = some st') (hinv : coreInvariant st) :
    coreInvariant st' := by
  induction fuel generalizing st with
  | zero => cases h
  | succ n ih =>
    have h' : (if (onePass st).2 then propagate n (onePass st).1
        else some (onePass st).1) = some st' := h
    have hnext : coreInvariant (onePass st).1 := by
      rw [onePass_fst]
      refine ⟨passEnd_grid hinv.1, passEnd_fresh hinv.2.1, ?_⟩
      rw [passEnd_moves]
      exact hinv.2.2.trans (passEnd_safes_mono st)
    by_cases hb : (onePass st).2 = true
    · rw [if_pos hb] at h'
      exact ih h' hnext
    · rw [if_neg hb] at h'
      cases h'
      exact hnext

/-- `MinesweeperAI.mark_safe` keeps the C10 invariant. -/
theorem mark_safe_core {st : AIState} (c : Cell) (hinv : coreInvariant st) :
    coreInvariant (st.mark_safe c) := by
  obtain ⟨hg, hf, hms⟩ := hinv
  refine ⟨?_, ?_, ?_⟩
  · intro s hs x hx
    rcases List.mem_map.mp hs with ⟨t, ht, rfl⟩
    exact hg t ht x (Sentence.mem_mark_safe hx).1
  · intro s hs x hx
    rcases List.mem_map.mp hs with ⟨t, ht, rfl⟩
    rcases Sentence.mem_mark_safe hx with ⟨hxt, hne⟩
    refine ⟨?_, (hf t ht x hxt).2⟩
    intro hmem
    rcases Finset.mem_insert.mp hmem with rfl | h1
    · exact hne rfl
    · exact (hf t ht x hxt).1 h1
  · exact hms.trans (Finset.subset_insert _ _)

/-- `MinesweeperAI.mark_mine` keeps the C10 invariant. -/
theorem mark_mine_core {st : AIState} (c : Cell) (hinv : coreInvariant st) :
    coreInvariant (st.mark_mine c) := by
  obtain ⟨hg, hf, hms⟩ := hinv
  refine ⟨?_, ?_, ?_⟩
  · intro s hs x hx
    rcases List.mem_map.mp hs with ⟨t, ht, rfl⟩
    exact hg t ht x (Sentence.mem_mark_mine hx).1
  · intro s hs x hx
    rcases List.mem_map.mp hs with ⟨t, ht, rfl⟩
    rcases Sentence.mem_mark_mine hx with ⟨hxt, hne⟩
    refine ⟨(hf t ht x hxt).1, ?_⟩
    intro hmem
    rcases Finset.mem_insert.mp hmem with rfl | h1
    · exact hne rfl
    · exact (hf t ht x hxt).2 h1
  · exact hms

/-- `add_knowledge` keeps the C10 invariant whenever its loop converges. -/
theorem addKnowledge_core {fuel : ℕ} {st : AIState} {cell : Cell} {count : ℤ}
    {st' : AIState} (h : addKnowledge fuel st cell count = some st')
    (hinv : coreInvariant st) : coreInvariant st' := by
  have hinv2 : coreInvariant (ingestStart st cell) := by
    obtain ⟨hg, hf, hms⟩ := hinv
    rw [ingestStart_fields]
    refine ⟨?_, ?_, ?_⟩
    · intro s hs x hx
      rcases List.mem_map.mp hs with ⟨t, ht, rfl⟩
      exact hg t ht x (Sentence.mem_mark_safe hx).1
    · intro s hs x hx
      rcases List.mem_map.mp hs with ⟨t, ht, rfl⟩
      rcases Sentence.mem_mark_safe hx with ⟨hxt, hne⟩
      refine ⟨?_, (hf t ht x hxt).2⟩
      intro hmem
      rcases Finset.mem_insert.mp hmem with rfl | h1
      · exact hne rfl
      · exact (hf t ht x hxt).1 h1
    · intro x hx
      rcases Finset.mem_insert.mp hx with rfl | hx'
      · exact Finset.mem_insert_self _ _
      · exact Finset.mem_insert_of_mem (hms hx')
  have hun := find_unexplored_spec (ingestStart st cell) cell
  have h' : propagate fuel
      (if count = 0 then
        (cellList ((ingestStart st cell).find_unexplored_neighbors cell)).foldl
          AIState.mark_safe (ingestStart st cell)
      else if (((ingestStart st cell).find_unexplored_neighbors cell).card : ℤ) ≤ count then
        (cellList ((ingestStart st cell).find_unexplored_neighbors cell)).foldl
          AIState.mark_mine (ingestStart st cell)
      else { ingestStart st cell with
             knowledge := (ingestStart st cell).knowledge ++
               [⟨(ingestStart st cell).find_unexplored_neighbors cell, count⟩] })
      = some st' := h
  split_ifs at h' with h0 h1
  · refine propagate_core h' ?_
    rw [markSafeFold]
    obtain ⟨hg2, hf2, hms2⟩ := hinv2
    refine ⟨?_, ?_, ?_⟩
    · intro s hs x hx
      rcases List.mem_map.mp hs with ⟨t, ht, rfl⟩
      exact hg2 t ht x (Finset.mem_sdiff.mp hx).1
    · intro s hs x hx
      rcases List.mem_map.mp hs with ⟨t, ht, rfl⟩
      rcases Finset.mem_sdiff.mp hx with ⟨hxt, hxu⟩
      refine ⟨?_, (hf2 t ht x hxt).2⟩
      intro hmem
      rcases Finset.mem_union.mp hmem with h2 | h2
      · exact (hf2 t ht x hxt).1 h2
      · exact hxu h2
    · exact hms2.trans Finset.subset_union_left
  · refine propagate_core h' ?_
    rw [markMineFold]
    obtain ⟨hg2, hf2, hms2⟩ := hinv2
    refine ⟨?_, ?_, ?_⟩
    · intro s hs x hx
      rcases List.mem_map.mp hs with ⟨t, ht, rfl⟩
      exact hg2 t ht x (Finset.mem_sdiff.mp hx).1
    · intro s hs x hx
      rcases List.mem_map.mp hs with ⟨t, ht, rfl⟩
      rcases Finset.mem_sdiff.mp hx with ⟨hxt, hxu⟩
      refine ⟨(hf2 t ht x hxt).1, ?_⟩
      intro hmem
      rcases Finset.mem_union.mp hmem with h2 | h2
      · exact (hf2 t ht x hxt).2 h2
      · exact hxu h2
    · exact hms2
  · refine propagate_core h' ?_
    obtain ⟨hg2, hf2, hms2⟩ := hinv2
    refine ⟨?_, ?_, hms2⟩
    · intro s hs x hx
      rcases List.mem_append.mp hs with hs' | hs'
      · exact hg2 s hs' x hx
      · rcases List.mem_singleton.mp hs' with rfl
        exact (hun x hx).1
    · intro s hs x hx
      rcases List.mem_append.mp hs with hs' | hs'
      · exact hf2 s hs' x hx
      · rcases List.mem_singleton.mp hs' with rfl
        have := (hun x hx).2
        constructor
        · intro hmem
          exact this (Finset.mem_union_left _ (Finset.mem_union_right _ hmem))
        · intro hmem
          exact this (Finset.mem_union_right _ hmem)

/-- `make_safe_move` does not change the solver state. -/
theorem makeSafeMove_fst (st : AIState) : (makeSafeMove st).1 = st := by
  cases h : cellList (st.safes \ st.moves_made) with
  | nil => simp [makeSafeMove, h]
  | cons c r => simp [makeSafeMove, h]

/-- `make_random_move` does not change the solver state. -/
theorem makeRandomMove_fst (st : AIState) (samples : List Cell) :
    (makeRandomMove st samples).1 = st := by
  induction samples with
  | nil => rfl
  | cons c rest ih =>
    rw [makeRandomMove]
    split_ifs with h
    · exact ih
    · rfl

/-- Claim C10: every solver operation keeps the invariant that each cell of
each sentence of the knowledge collection lies inside the grid and belongs
to neither `safes` nor `mines` (and, since moves are only made on safe
cells, not to `moves_made` either); the two query operations do not change
the state at all, and a fresh solver satisfies the invariant. -/
theorem claim_C10 :
    (∀ h w : ℤ, coreInvariant (freshAI h w)) ∧
    (∀ (st : AIState) (c : Cell), coreInvariant st → coreInvariant (st.mark_safe c)) ∧
    (∀ (st : AIState) (c : Cell), coreInvariant st → coreInvariant (st.mark_mine c)) ∧
    (∀ (fuel : ℕ) (st : AIState) (cell : Cell) (count : ℤ) (st' : AIState),
      addKnowledge fuel st cell count = some st' → coreInvariant st → coreInvariant st') ∧
    (∀ st : AIState, (makeSafeMove st).1 = st) ∧
    (∀ (st : AIState) (samples : List Cell), (makeRandomMove st samples).1 = st) ∧
    (∀ st : AIState, coreInvariant st →
      ∀ s ∈ st.knowledge, ∀ c ∈ s.cells, c ∉ st.moves_made) := by
  refine ⟨?_, ?_, ?_, ?_, makeSafeMove_fst, makeRandomMove_fst, ?_⟩
  · intro h w
    refine ⟨?_, ?_, Finset.Subset.refl _⟩
    · intro s hs
      cases hs
    · intro s hs
      cases hs
  · exact fun _ c hinv => mark_safe_core c hinv
  · exact fun _ c hinv => mark_mine_core c hinv
  · exact fun _ _ _ _ _ h hinv => addKnowledge_core h hinv
  · exact fun st hinv s hs c hc hmem => (hinv.2.1 s hs c hc).1 (hinv.2.2 hmem)

/-- The state one out-of-scenario `add_knowledge` call converges to, for the
C10 witness. -/
def c10wFinal : AIState := (addKnowledge 10 (freshAI 3 3) ((1:ℤ),(1:ℤ)) 1).getD (freshAI 0 0)

/-- Witness for C10: the invariant holds after a concrete `add_knowledge`
call on a fresh 3x3 solver, and concrete marking operations keep it. -/
theorem claim_C10_witness :
    coreInvariant ((freshAI 3 3).mark_safe ((0:ℤ),(0:ℤ))) ∧
    coreInvariant ((freshAI 3 3).mark_mine ((1:ℤ),(1:ℤ))) ∧
    coreInvariant c10wFinal ∧
    (makeSafeMove (freshAI 3 3)).1 = freshAI 3 3 ∧
    (makeRandomMove (freshAI 3 3) [((0:ℤ),(0:ℤ))]).1 = freshAI 3 3 := by
  have hfresh : coreInvariant (freshAI 3 3) := claim_C10.1 3 3
  have hs : (addKnowledge 10 (freshAI 3 3) ((1:ℤ),(1:ℤ)) 1).isSome = true := by decide
  have h : addKnowledge 10 (freshAI 3 3) ((1:ℤ),(1:ℤ)) 1 = some c10wFinal := by
    unfold c10wFinal
    cases ho : addKnowledge 10 (freshAI 3 3) ((1:ℤ),(1:ℤ)) 1 with
    | none => rw [ho] at hs; cases hs
    | some v => rfl
  exact ⟨claim_C10.2.1 (freshAI 3 3) ((0:ℤ),(0:ℤ)) hfresh,
    claim_C10.2.2.1 (freshAI 3 3) ((1:ℤ),(1:ℤ)) hfresh,
    claim_C10.2.2.2.1 10 (freshAI 3 3) ((1:ℤ),(1:ℤ)) 1 c10wFinal h hfresh,
    claim_C10.2.2.2.2.1 (freshAI 3 3),
    claim_C10.2.2.2.2.2.1 (freshAI 3 3) [((0:ℤ),(0:ℤ))]⟩

/-! ## Non-termination of the propagation loop (claim C2, counterexample) -/

/-- The cell of the diverging knowledge base. -/
def badCell : Cell := ((0:ℤ), (0:ℤ))

/-- The knowledge list after `j` passes of the diverging run: the empty
sentence with count `3` keeps spawning ever smaller counts on `badCell`. -/
def badK (j : ℕ) : List Sentence :=
  ⟨∅, 3⟩ :: (List.range (j + 1)).map (fun i : ℕ => ⟨{badCell}, 2 - 3 * (i : ℤ)⟩)

/-- The solver state after `j` passes of the diverging run. -/
def badState (j : ℕ) : AIState :=
  { height := 3, width := 3, moves_made := ∅, mines := ∅, safes := ∅,
    knowledge := badK j }

/-- Membership in the diverging knowledge list. -/
theorem mem_badK {j : ℕ} {s : Sentence} :
    s ∈ badK j ↔ s = ⟨∅, 3⟩ ∨ ∃ i : ℕ, i ≤ j ∧ s = ⟨{badCell}, 2 - 3 * (i : ℤ)⟩ := by
  unfold badK
  simp only [List.mem_cons, List.mem_map, List.mem_range]
  constructor
  · rintro (rfl | ⟨i, hi, rfl⟩)
    · exact Or.inl rfl
    · exact Or.inr ⟨i, by omega, rfl⟩
  · rintro (rfl | ⟨i, hi, rfl⟩)
    · exact Or.inl rfl
    · exact Or.inr ⟨i, by omega, rfl⟩

/-- No sentence of the diverging knowledge base triggers mine extraction. -/
theorem badState_mtm (j : ℕ) : minesToBeMarked (badState j) = ∅ := by
  ext c
  simp only [Finset.not_mem_empty, iff_false]
  intro hc
  rcases (mem_minesToBeMarked _ _).mp hc with ⟨⟨s, hs, hcard, hcs⟩, _⟩
  rcases mem_badK.mp hs with rfl | ⟨i, _, rfl⟩
  · exact absurd hcs (Finset.not_mem_empty c)
  · have h2 : ((({badCell} : Finset Cell).card : ℤ)) = 2 - 3 * (i : ℤ) := hcard
    rw [Finset.card_singleton] at h2
    omega

/-- The mine phase does nothing on the diverging states. -/
theorem badState_passMid (j : ℕ) : passMid (badState j) = badState j := by
  rw [passMid, badState_mtm, cellList_empty]
  rfl

/-- No sentence of the diverging knowledge base triggers safe extraction. -/
theorem badState_stm (j : ℕ) : safesToBeMarked (badState j) = ∅ := by
  ext c
  simp only [Finset.not_mem_empty, iff_false]
  intro hc
  rcases (mem_safesToBeMarked _ _).mp hc with ⟨⟨s, hs, hcount, hcs⟩, _⟩
  rcases mem_badK.mp hs with rfl | ⟨i, _, rfl⟩
  · exact absurd hcs (Finset.not_mem_empty c)
  · have h2 : 2 - 3 * (i : ℤ) = 0 := hcount
    omega

/-- No sentence of the diverging knowledge base is removed by the filter. -/
theorem badState_filter (j : ℕ) :
    (badK j).filter (fun s => ¬ s.count = 0) = badK j := by
  rw [List.filter_eq_self]
  intro s hs
  rcases mem_badK.mp hs with rfl | ⟨i, _, rfl⟩
  · simp
  · simp only [decide_eq_true_eq]
    omega

/-- The safe phase does nothing on the diverging states. -/
theorem badState_passMid3 (j : ℕ) : passMid3 (badState j) = badState j := by
  rw [passMid3, badState_passMid, badState_stm, cellList_empty]
  show passMid2 (badState j) = badState j
  rw [passMid2, badState_passMid]
  show { badState j with knowledge := (badK j).filter (fun s => ¬ s.count = 0) } = badState j
  rw [badState_filter]
  rfl

/-- Every sentence of the diverging knowledge base has cell set `∅` or
`{badCell}`. -/
theorem badK_cells (j : ℕ) : ∀ b ∈ badK j, b.cells = ∅ ∨ b.cells = {badCell} := by
  intro b hb
  rcases mem_badK.mp hb with rfl | ⟨i, _, rfl⟩
  · exact Or.inl rfl
  · exact Or.inr rfl

/-- `subsetStep` for the empty sentence against a `badCell` sentence whose
derived candidate is already known: the queue is unchanged. -/
theorem subsetStep_a0_eval (K : List Sentence) (acc : List Sentence) (c : ℤ)
    (hin : (⟨({badCell} : Finset Cell) \ ∅, c - 3⟩ : Sentence) ∈ K) :
    subsetStep K ⟨∅, 3⟩ acc ⟨{badCell}, c⟩ = acc := by
  unfold subsetStep
  split_ifs with h1 h2
  · exact absurd hin h2.1
  · rfl
  · rfl

/-- `subsetStep` for the empty sentence against a `badCell` sentence whose
derived candidate is new: the candidate is queued. -/
theorem subsetStep_a0_new (K : List Sentence) (acc : List Sentence) (c : ℤ)
    (hnotK : (⟨({badCell} : Finset Cell) \ ∅, c - 3⟩ : Sentence) ∉ K)
    (hnotAcc : (⟨({badCell} : Finset Cell) \ ∅, c - 3⟩ : Sentence) ∉ acc) :
    subsetStep K ⟨∅, 3⟩ acc ⟨{badCell}, c⟩ =
      acc ++ [⟨({badCell} : Finset Cell) \ ∅, c - 3⟩] := by
  unfold subsetStep
  split_ifs with h1 h2
  · rfl
  · exact absurd ⟨hnotK, hnotAcc⟩ h2
  · exact absurd ⟨Ne.symm (Finset.singleton_ne_empty badCell), Finset.empty_subset _⟩ h1

/-- `subsetStep` for a `badCell` sentence against any sentence of the
diverging base: nothing is queued. -/
theorem subsetStep_skip (K : List Sentence) (acc : List Sentence) (a b : Sentence)
    (ha : a.cells = {badCell}) (hb : b.cells = ∅ ∨ b.cells = {badCell}) :
    subsetStep K a acc b = acc := by
  unfold subsetStep
  split_ifs with h1 h2
  · exfalso
    rcases hb with hb | hb
    · have hsub := h1.2
      rw [ha, hb] at hsub
      simpa using hsub
    · exact h1.1 (ha.trans hb.symm)
  · rfl
  · rfl

/-- The inner loop for a `badCell` sentence changes nothing. -/
theorem inner_fold_skip (K : List Sentence) (a : Sentence) (ha : a.cells = {badCell})
    (l : List Sentence) (hl : ∀ b ∈ l, b.cells = ∅ ∨ b.cells = {badCell})
    (acc : List Sentence) : l.foldl (subsetStep K a) acc = acc := by
  induction l generalizing acc with
  | nil => rfl
  | cons b l ih =>
    rw [List.foldl_cons, subsetStep_skip K acc a b ha (hl b (List.mem_cons_self _ _))]
    exact ih (fun x hx => hl x (List.mem_cons_of_mem _ hx)) acc

/-- The inner loop for the empty sentence over a proper initial segment of
the diverging tail only re-derives known sentences. -/
theorem inner_a0_short (j : ℕ) : ∀ m : ℕ, m ≤ j →
    ((List.range m).map (fun i : ℕ => (⟨{badCell}, 2 - 3 * (i : ℤ)⟩ : Sentence))).foldl
      (subsetStep (badK j) ⟨∅, 3⟩) [] = [] := by
  intro m
  induction m with
  | zero => intro _; rfl
  | succ m ih =>
    intro hm
    rw [List.range_succ, List.map_append, List.foldl_append, ih (by omega)]
    show subsetStep (badK j) ⟨∅, 3⟩ [] ⟨{badCell}, 2 - 3 * (m : ℤ)⟩ = []
    apply subsetStep_a0_eval
    apply mem_badK.mpr
    refine Or.inr ⟨m + 1, by omega, ?_⟩
    rw [Sentence.mk.injEq]
    refine ⟨Finset.sdiff_empty, ?_⟩
    push_cast
    ring

/-- The inner loop for the empty sentence over the whole diverging base
derives exactly one new sentence, with the next smaller count. -/
theorem inner_a0_full (j : ℕ) :
    (badK j).foldl (subsetStep (badK j) ⟨∅, 3⟩) [] =
      [⟨({badCell} : Finset Cell) \ ∅, (2 - 3 * (j : ℤ)) - 3⟩] := by
  have h0 : subsetStep (badK j) ⟨∅, 3⟩ [] ⟨∅, 3⟩ = [] := by
    unfold subsetStep
    split_ifs with h1 h2
    · exact absurd rfl h1.1
    · rfl
    · rfl
  show ((⟨∅, 3⟩ : Sentence) ::
      (List.range (j + 1)).map (fun i : ℕ => (⟨{badCell}, 2 - 3 * (i : ℤ)⟩ : Sentence))).foldl
      (subsetStep (badK j) ⟨∅, 3⟩) [] = _
  rw [List.foldl_cons, h0, List.range_succ, List.map_append, List.foldl_append,
    inner_a0_short j j le_rfl]
  show subsetStep (badK j) ⟨∅, 3⟩ [] ⟨{badCell}, 2 - 3 * (j : ℤ)⟩ = _
  rw [subsetStep_a0_new]
  · rfl
  · intro hmem
    rcases mem_badK.mp hmem with heq | ⟨i, hi, heq⟩
    · have hcells : ({badCell} : Finset Cell) \ ∅ = ∅ := congrArg Sentence.cells heq
      rw [Finset.sdiff_empty] at hcells
      exact Finset.singleton_ne_empty badCell hcells
    · have hc : (2 - 3 * (j : ℤ)) - 3 = 2 - 3 * (i : ℤ) := congrArg Sentence.count heq
      omega
  · exact List.not_mem_nil _

/-- The outer loop over the diverging tail changes nothing. -/
theorem outer_skip (j : ℕ) (l : List Sentence) (hl : ∀ a ∈ l, a.cells = {badCell})
    (acc : List Sentence) :
    l.foldl (fun acc a => (badK j).foldl (subsetStep (badK j) a) acc) acc = acc := by
  induction l generalizing acc with
  | nil => rfl
  | cons a l ih =>
    rw [List.foldl_cons,
      inner_fold_skip (badK j) a (hl a (List.mem_cons_self _ _)) (badK j) (badK_cells j) acc]
    exact ih (fun x hx => hl x (List.mem_cons_of_mem _ hx)) acc

/-- The subset-inference step on the diverging base queues exactly the next
sentence of the family. -/
theorem subsetNew_badK (j : ℕ) :
    subsetNew (badK j) = [⟨({badCell} : Finset Cell) \ ∅, (2 - 3 * (j : ℤ)) - 3⟩] := by
  rw [subsetNew_eq]
  show ((⟨∅, 3⟩ : Sentence) ::
      (List.range (j + 1)).map (fun i : ℕ => (⟨{badCell}, 2 - 3 * (i : ℤ)⟩ : Sentence))).foldl
      (fun acc a => (badK j).foldl (subsetStep (badK j) a) acc) [] = _
  rw [List.foldl_cons, inner_a0_full j]
  apply outer_skip
  intro a ha
  rcases List.mem_map.mp ha with ⟨i, _, rfl⟩
  rfl

/-- One pass on the diverging state produces the next diverging state and
reports progress: the loop runs forever. -/
theorem badState_onePass (j : ℕ) :
    onePass (badState j) = (badState (j + 1), true) := by
  have h1 : (onePass (badState j)).1 = badState (j + 1) := by
    rw [onePass_fst]
    unfold passEnd
    rw [badState_passMid3]
    show ({ badState j with knowledge := badK j ++ subsetNew (badK j) } : AIState) =
      badState (j + 1)
    rw [subsetNew_badK]
    show AIState.mk 3 3 ∅ ∅ ∅
        (badK j ++ [⟨({badCell} : Finset Cell) \ ∅, (2 - 3 * (j : ℤ)) - 3⟩]) =
      AIState.mk 3 3 ∅ ∅ ∅ (badK (j + 1))
    have hsent : (⟨({badCell} : Finset Cell) \ ∅, (2 - 3 * (j : ℤ)) - 3⟩ : Sentence) =
        ⟨{badCell}, 2 - 3 * ((j + 1 : ℕ) : ℤ)⟩ := by
      rw [Sentence.mk.injEq]
      refine ⟨Finset.sdiff_empty, ?_⟩
      push_cast
      ring
    rw [hsent]
    congr 1
    unfold badK
    rw [List.cons_append]
    congr 1
    rw [List.range_succ (j + 1), List.map_append]
    rfl
  have h2 : (onePass (badState j)).2 = true := by
    rw [onePass_snd, badState_passMid3]
    have hne : subsetNew ((badState j).knowledge) ≠ [] := by
      show subsetNew (badK j) ≠ []
      rw [subsetNew_badK]
      simp
    simp [hne]
  calc onePass (badState j) = ((onePass (badState j)).1, (onePass (badState j)).2) := rfl
    _ = (badState (j + 1), true) := by rw [h1, h2]

/-- Counterexample to claim C2: the two-sentence knowledge base consisting of
the empty sentence with count 3 and the sentence "exactly 2 of the single
cell (0,0)" drives the propagation loop into an infinite pass sequence: no
amount of fuel makes it return. -/
theorem claim_C2_counterexample :
    (badState 0).knowledge = [⟨∅, 3⟩, ⟨{((0:ℤ),(0:ℤ))}, 2⟩] ∧
    ∀ n : ℕ, propagate n (badState 0) = none := by
  constructor
  · decide
  · have aux : ∀ (n j : ℕ), propagate n (badState j) = none := by
      intro n
      induction n with
      | zero => intro j; rfl
      | succ n ih =>
        intro j
        have h' : propagate (n + 1) (badState j) =
            (if (onePass (badState j)).2 then propagate n (onePass (badState j)).1
             else some (onePass (badState j)).1) := rfl
        rw [h', badState_onePass]
        simpa using ih (j + 1)
    exact fun n => aux n 0

/-! ## Termination of the propagation loop on well-formed states
(claim C2, amended) -/

/-- The whole solver state is satisfied by the mine assignment `M`: known
mines are mines, known safes are not, and every sentence counts exactly its
mines under `M`. -/
def ConsistentWith (M : Finset Cell) (st : AIState) : Prop :=
  st.mines ⊆ M ∧ (∀ c ∈ st.safes, c ∉ M) ∧
    ∀ s ∈ st.knowledge, ((s.cells ∩ M).card : ℤ) = s.count

/-- All cells mentioned by a knowledge list. -/
def sentenceUniverse (K : List Sentence) : Finset Cell :=
  K.foldr (fun s acc => s.cells ∪ acc) ∅

/-- Membership in the universe of a knowledge list. -/
theorem mem_sentenceUniverse {K : List Sentence} {c : Cell} :
    c ∈ sentenceUniverse K ↔ ∃ s ∈ K, c ∈ s.cells := by
  induction K with
  | nil => simp [sentenceUniverse]
  | cons s K ih =>
    show c ∈ s.cells ∪ sentenceUniverse K ↔ _
    rw [Finset.mem_union, ih]
    simp only [List.mem_cons]
    constructor
    · rintro (h | ⟨t, ht, hc⟩)
      · exact ⟨s, Or.inl rfl, h⟩
      · exact ⟨t, Or.inr ht, hc⟩
    · rintro ⟨t, (rfl | ht), hc⟩
      · exact Or.inl hc
      · exact Or.inr ⟨t, ht, hc⟩

/-- The universe of concatenated knowledge lists. -/
theorem sentenceUniverse_append (K L : List Sentence) :
    sentenceUniverse (K ++ L) = sentenceUniverse K ∪ sentenceUniverse L := by
  ext c
  rw [Finset.mem_union, mem_sentenceUniverse, mem_sentenceUniverse, mem_sentenceUniverse]
  constructor
  · rintro ⟨s, hs, hc⟩
    rcases List.mem_append.mp hs with h | h
    · exact Or.inl ⟨s, h, hc⟩
    · exact Or.inr ⟨s, h, hc⟩
  · rintro (⟨s, hs, hc⟩ | ⟨s, hs, hc⟩)
    · exact ⟨s, List.mem_append_left _ hs, hc⟩
    · exact ⟨s, List.mem_append_right _ hs, hc⟩

/-- The distinct non-empty cell sets of a knowledge list. -/
def cellsImage (K : List Sentence) : Finset (Finset Cell) :=
  ((K.map Sentence.cells).toFinset).filter (fun t => t ≠ ∅)

/-- Membership in the non-empty cell-set image. -/
theorem mem_cellsImage {K : List Sentence} {t : Finset Cell} :
    t ∈ cellsImage K ↔ (∃ s ∈ K, s.cells = t) ∧ t ≠ ∅ := by
  unfold cellsImage
  rw [Finset.mem_filter, List.mem_toFinset, List.mem_map]

/-- The first lexicographic component: unclassified cells of the universe. -/
def m1 (st : AIState) : ℕ :=
  ((sentenceUniverse st.knowledge) \ (st.mines ∪ st.safes)).card

/-- The second lexicographic component: non-empty subsets of the universe
not yet appearing as a sentence's cell set. -/
def m2 (st : AIState) : ℕ :=
  ((sentenceUniverse st.knowledge).powerset.filter (fun t => t ≠ ∅)).card
    - (cellsImage st.knowledge).card

/-- The combined natural-number measure of a pass. -/
def passMeasure (st : AIState) : ℕ :=
  m1 st * 2 ^ (sentenceUniverse st.knowledge).card + m2 st

/-- There are `2 ^ n - 1` non-empty subsets of an `n`-element set. -/
theorem card_powerset_ne (u : Finset Cell) :
    (u.powerset.filter (fun t => t ≠ ∅)).card = 2 ^ u.card - 1 := by
  rw [Finset.filter_ne', Finset.card_erase_of_mem (Finset.empty_mem_powerset u),
    Finset.card_powerset]

/-- The non-empty cell sets of a knowledge list are non-empty subsets of its
universe. -/
theorem cellsImage_subset (K : List Sentence) :
    cellsImage K ⊆ (sentenceUniverse K).powerset.filter (fun t => t ≠ ∅) := by
  intro t ht
  rcases mem_cellsImage.mp ht with ⟨⟨s, hs, rfl⟩, hne⟩
  rw [Finset.mem_filter, Finset.mem_powerset]
  exact ⟨fun c hc => mem_sentenceUniverse.mpr ⟨s, hs, hc⟩, hne⟩

/-- Under a consistent assignment, the collected mines really are mines. -/
theorem mtm_subset_M {M : Finset Cell} {st : AIState} (hc : ConsistentWith M st) :
    minesToBeMarked st ⊆ M := by
  intro c hcm
  rcases (mem_minesToBeMarked _ _).mp hcm with ⟨⟨s, hs, hcard, hcs⟩, _⟩
  have h1 : ((s.cells ∩ M).card : ℤ) = s.count := hc.2.2 s hs
  have h2 : s.cells.card ≤ (s.cells ∩ M).card := by omega
  have h3 : s.cells ∩ M = s.cells :=
    Finset.eq_of_subset_of_card_le Finset.inter_subset_left h2
  rw [← h3] at hcs
  exact (Finset.mem_inter.mp hcs).2

/-- The mine-extraction phase keeps consistency. -/
theorem passMid_consistent {M : Finset Cell} {st : AIState}
    (hc : ConsistentWith M st) : ConsistentWith M (passMid st) := by
  have hsub := mtm_subset_M hc
  rw [passMid_eq]
  refine ⟨Finset.union_subset hc.1 hsub, hc.2.1, ?_⟩
  intro s hs
  rcases List.mem_map.mp hs with ⟨t, ht, rfl⟩
  have hid : (t.cells \ minesToBeMarked st) ∩ M =
      (t.cells ∩ M) \ (t.cells ∩ minesToBeMarked st) := by
    ext x
    simp only [Finset.mem_inter, Finset.mem_sdiff]
    constructor
    · rintro ⟨⟨h1, h2⟩, h3⟩
      exact ⟨⟨h1, h3⟩, fun hx => h2 hx.2⟩
    · rintro ⟨⟨h1, h3⟩, h2⟩
      exact ⟨⟨h1, fun hx => h2 ⟨h1, hx⟩⟩, h3⟩
  have hsubm : t.cells ∩ minesToBeMarked st ⊆ t.cells ∩ M :=
    Finset.inter_subset_inter (Finset.Subset.refl _) hsub
  have hcount := hc.2.2 t ht
  show ((((t.cells \ minesToBeMarked st) ∩ M).card : ℕ) : ℤ) =
    t.count - ((t.cells ∩ minesToBeMarked st).card : ℤ)
  rw [hid, Finset.card_sdiff hsubm,
    Nat.cast_sub (Finset.card_le_card hsubm), hcount]

/-- The sentence-removal step keeps consistency. -/
theorem passMid2_consistent {M : Finset Cell} {st : AIState}
    (hc : ConsistentWith M (passMid st)) : ConsistentWith M (passMid2 st) :=
  ⟨hc.1, hc.2.1, fun s hs => hc.2.2 s (List.mem_of_mem_filter hs)⟩

/-- Under a consistent assignment, the collected safes really are not mines. -/
theorem stm_not_M {M : Finset Cell} {st : AIState}
    (hc : ConsistentWith M (passMid st)) :
    ∀ c ∈ safesToBeMarked (passMid st), c ∉ M := by
  intro c hcm hM
  rcases (mem_safesToBeMarked _ _).mp hcm with ⟨⟨s, hs, h0, hcs⟩, _⟩
  have h1 := hc.2.2 s hs
  rw [h0] at h1
  have h2 : s.cells ∩ M = ∅ := Finset.card_eq_zero.mp (by exact_mod_cast h1)
  have h3 : c ∈ s.cells ∩ M := Finset.mem_inter.mpr ⟨hcs, hM⟩
  rw [h2] at h3
  exact Finset.not_mem_empty c h3

/-- The safe-extraction phase keeps consistency. -/
theorem passMid3_consistent {M : Finset Cell} {st : AIState}
    (hc : ConsistentWith M (passMid st)) : ConsistentWith M (passMid3 st) := by
  have hc2 := passMid2_consistent hc
  have hstm := stm_not_M hc
  rw [passMid3_eq]
  refine ⟨hc2.1, ?_, ?_⟩
  · intro c hcmem
    rcases Finset.mem_union.mp hcmem with h | h
    · exact hc2.2.1 c h
    · exact hstm c h
  · intro s hs
    rcases List.mem_map.mp hs with ⟨t, ht, rfl⟩
    have hid : (t.cells \ safesToBeMarked (passMid st)) ∩ M = t.cells ∩ M := by
      ext x
      simp only [Finset.mem_inter, Finset.mem_sdiff]
      constructor
      · rintro ⟨⟨h1, _⟩, h3⟩
        exact ⟨h1, h3⟩
      · rintro ⟨h1, h3⟩
        exact ⟨⟨h1, fun hx => hstm x hx h3⟩, h3⟩
    show (((t.cells \ safesToBeMarked (passMid st)) ∩ M).card : ℤ) = t.count
    rw [hid]
    exact hc2.2.2 t ht

/-- A whole pass keeps consistency. -/
theorem passEnd_consistent {M : Finset Cell} {st : AIState}
    (hc : ConsistentWith M st) : ConsistentWith M (passEnd st) := by
  have hc3 := passMid3_consistent (passMid_consistent hc)
  refine ⟨hc3.1, hc3.2.1, ?_⟩
  intro s hs
  rcases List.mem_append.mp hs with h | h
  · exact hc3.2.2 s h
  · rcases subsetNew_sound _ s h with ⟨_, a, ha, b, hb, hne, hsub, rfl⟩
    have hid : (b.cells \ a.cells) ∩ M = (b.cells ∩ M) \ (a.cells ∩ M) := by
      ext x
      simp only [Finset.mem_inter, Finset.mem_sdiff]
      constructor
      · rintro ⟨⟨h1, h2⟩, h3⟩
        exact ⟨⟨h1, h3⟩, fun hx => h2 hx.1⟩
      · rintro ⟨⟨h1, h3⟩, h2⟩
        exact ⟨⟨h1, fun hx => h2 ⟨hx, h3⟩⟩, h3⟩
    have hsub2 : a.cells ∩ M ⊆ b.cells ∩ M :=
      Finset.inter_subset_inter hsub (Finset.Subset.refl _)
    show (((b.cells \ a.cells) ∩ M).card : ℤ) = b.count - a.count
    rw [hid, Finset.card_sdiff hsub2,
      Nat.cast_sub (Finset.card_le_card hsub2), hc3.2.2 a ha, hc3.2.2 b hb]

/-- Projection: the mine phase leaves `safes` alone. -/
theorem passMid_safes (st : AIState) : (passMid st).safes = st.safes := by
  rw [passMid_eq]

/-- Projection: the mine phase adds the collected mines. -/
theorem passMid_mines (st : AIState) :
    (passMid st).mines = st.mines ∪ minesToBeMarked st := by
  rw [passMid_eq]

/-- The universe only shrinks in the mine phase. -/
theorem universe_passMid (st : AIState) :
    sentenceUniverse (passMid st).knowledge ⊆ sentenceUniverse st.knowledge := by
  rw [passMid_eq]
  intro c hmem
  rcases mem_sentenceUniverse.mp hmem with ⟨s, hs, hcs⟩
  rcases List.mem_map.mp hs with ⟨t, ht, rfl⟩
  exact mem_sentenceUniverse.mpr ⟨t, ht, (Finset.mem_sdiff.mp hcs).1⟩

/-- The universe only shrinks when sentences are removed. -/
theorem universe_passMid2 (st : AIState) :
    sentenceUniverse (passMid2 st).knowledge ⊆ sentenceUniverse (passMid st).knowledge := by
  intro c hmem
  rcases mem_sentenceUniverse.mp hmem with ⟨s, hs, hcs⟩
  exact mem_sentenceUniverse.mpr ⟨s, List.mem_of_mem_filter hs, hcs⟩

/-- The universe only shrinks in the safe phase. -/
theorem universe_passMid3 (st : AIState) :
    sentenceUniverse (passMid3 st).knowledge ⊆ sentenceUniverse (passMid2 st).knowledge := by
  rw [passMid3_eq]
  intro c hmem
  rcases mem_sentenceUniverse.mp hmem with ⟨s, hs, hcs⟩
  rcases List.mem_map.mp hs with ⟨t, ht, rfl⟩
  exact mem_sentenceUniverse.mpr ⟨t, ht, (Finset.mem_sdiff.mp hcs).1⟩

/-- The queued sentences of a pass mention no new cells. -/
theorem universe_subsetNew (K : List Sentence) :
    sentenceUniverse (subsetNew K) ⊆ sentenceUniverse K := by
  intro c hmem
  rcases mem_sentenceUniverse.mp hmem with ⟨s, hs, hcs⟩
  rcases subsetNew_sound K s hs with ⟨_, a, _, b, hb, _, _, rfl⟩
  exact mem_sentenceUniverse.mpr ⟨b, hb, (Finset.mem_sdiff.mp hcs).1⟩

/-- The universe only shrinks across a whole pass. -/
theorem universe_passEnd (st : AIState) :
    sentenceUniverse (passEnd st).knowledge ⊆ sentenceUniverse st.knowledge := by
  have h4 : sentenceUniverse (passEnd st).knowledge =
      sentenceUniverse (passMid3 st).knowledge ∪
        sentenceUniverse (subsetNew ((passMid3 st).knowledge)) :=
    sentenceUniverse_append _ _
  rw [h4]
  apply Finset.union_subset
  · exact ((universe_passMid3 st).trans (universe_passMid2 st)).trans (universe_passMid st)
  · exact (universe_subsetNew _).trans
      (((universe_passMid3 st).trans (universe_passMid2 st)).trans (universe_passMid st))

/-- The collected mines come from the universe. -/
theorem mtm_subset_universe (st : AIState) :
    minesToBeMarked st ⊆ sentenceUniverse st.knowledge := by
  intro c hc
  rcases (mem_minesToBeMarked _ _).mp hc with ⟨⟨s, hs, _, hcs⟩, _⟩
  exact mem_sentenceUniverse.mpr ⟨s, hs, hcs⟩

/-- The collected safes come from the universe of the mid state. -/
theorem stm_subset_universe (st : AIState) :
    safesToBeMarked (passMid st) ⊆ sentenceUniverse (passMid st).knowledge := by
  intro c hc
  rcases (mem_safesToBeMarked _ _).mp hc with ⟨⟨s, hs, _, hcs⟩, _⟩
  exact mem_sentenceUniverse.mpr ⟨s, hs, hcs⟩

/-- A pass that marks at least one cell strictly shrinks the set of
unclassified universe cells. -/
theorem m1_decrease {st : AIState} (hf : KnowledgeFresh st)
    (hne : (minesToBeMarked st ∪ safesToBeMarked (passMid st)).Nonempty) :
    m1 (passEnd st) < m1 st := by
  apply Finset.card_lt_card
  have hsub : (sentenceUniverse (passEnd st).knowledge) \
      ((passEnd st).mines ∪ (passEnd st).safes) ⊆
      (sentenceUniverse st.knowledge) \ (st.mines ∪ st.safes) := by
    intro c hc
    rcases Finset.mem_sdiff.mp hc with ⟨hcu, hcm⟩
    refine Finset.mem_sdiff.mpr ⟨universe_passEnd st hcu, ?_⟩
    intro hmem
    apply hcm
    rw [passEnd_mines, passEnd_safes]
    rcases Finset.mem_union.mp hmem with h | h
    · exact Finset.mem_union_left _ (Finset.mem_union_left _ h)
    · exact Finset.mem_union_right _ (Finset.mem_union_left _ h)
  rw [Finset.ssubset_iff_of_subset hsub]
  obtain ⟨c, hcmem⟩ := hne
  refine ⟨c, ?_, ?_⟩
  · rcases Finset.mem_union.mp hcmem with h | h
    · refine Finset.mem_sdiff.mpr ⟨mtm_subset_universe st h, ?_⟩
      intro hmem
      rcases Finset.mem_union.mp hmem with h2 | h2
      · exact (mtm_spec hf c h).2 h2
      · exact (mtm_spec hf c h).1 h2
    · have hspec := stm_spec (passMid_fresh hf) c h
      refine Finset.mem_sdiff.mpr
        ⟨universe_passMid st (stm_subset_universe st h), ?_⟩
      intro hmem
      rcases Finset.mem_union.mp hmem with h2 | h2
      · exact hspec.2 (by rw [passMid_mines]; exact Finset.mem_union_left _ h2)
      · exact hspec.1 (by rw [passMid_safes]; exact h2)
  · intro hmem
    rcases Finset.mem_sdiff.mp hmem with ⟨_, hcm⟩
    apply hcm
    rw [passEnd_mines, passEnd_safes]
    rcases Finset.mem_union.mp hcmem with h | h
    · exact Finset.mem_union_left _ (Finset.mem_union_right _ h)
    · exact Finset.mem_union_right _ (Finset.mem_union_right _ h)

/-- A marking pass strictly decreases the combined measure. -/
theorem passMeasure_decrease_marking {st : AIState} (hf : KnowledgeFresh st)
    (hne : (minesToBeMarked st ∪ safesToBeMarked (passMid st)).Nonempty) :
    passMeasure (passEnd st) < passMeasure st := by
  have h1 : m1 (passEnd st) < m1 st := m1_decrease hf hne
  have hucard : (sentenceUniverse (passEnd st).knowledge).card ≤
      (sentenceUniverse st.knowledge).card :=
    Finset.card_le_card (universe_passEnd st)
  have h2 : m2 (passEnd st) < 2 ^ (sentenceUniverse (passEnd st).knowledge).card := by
    have hpow := card_powerset_ne (sentenceUniverse (passEnd st).knowledge)
    have hpos : 0 < 2 ^ (sentenceUniverse (passEnd st).knowledge).card :=
      Nat.pos_pow_of_pos _ (by norm_num)
    have hle : m2 (passEnd st) ≤
        ((sentenceUniverse (passEnd st).knowledge).powerset.filter
          (fun t => t ≠ ∅)).card := Nat.sub_le _ _
    omega
  have h3 : 2 ^ (sentenceUniverse (passEnd st).knowledge).card ≤
      2 ^ (sentenceUniverse st.knowledge).card :=
    Nat.pow_le_pow_right (by norm_num) hucard
  unfold passMeasure
  calc m1 (passEnd st) * 2 ^ (sentenceUniverse (passEnd st).knowledge).card +
        m2 (passEnd st)
      < (m1 (passEnd st) + 1) * 2 ^ (sentenceUniverse (passEnd st).knowledge).card := by
        rw [Nat.add_mul, Nat.one_mul]
        omega
    _ ≤ m1 st * 2 ^ (sentenceUniverse (passEnd st).knowledge).card :=
        Nat.mul_le_mul_right _ (by omega)
    _ ≤ m1 st * 2 ^ (sentenceUniverse st.knowledge).card :=
        Nat.mul_le_mul_left _ h3
    _ ≤ m1 st * 2 ^ (sentenceUniverse st.knowledge).card + m2 st :=
        Nat.le_add_right _ _

/-- Two sentences with the same cells and counts are equal. -/
theorem Sentence.eq_of_fields {s t : Sentence} (h1 : s.cells = t.cells)
    (h2 : s.count = t.count) : s = t := by
  cases s
  cases t
  rw [Sentence.mk.injEq]
  exact ⟨h1, h2⟩

/-- When no mines are collected, the mine phase does nothing. -/
theorem passMid_of_empty {st : AIState} (h : minesToBeMarked st = ∅) :
    passMid st = st := by
  rw [passMid, h, cellList_empty]
  rfl

/-- When no safes are collected, the safe phase only filters. -/
theorem passMid3_of_empty {st : AIState} (h : safesToBeMarked (passMid st) = ∅) :
    passMid3 st = passMid2 st := by
  rw [passMid3, h, cellList_empty]
  rfl

/-- When nothing is collected for safe-marking and the sentences avoid safe
cells, every `count == 0` sentence has no cells at all. -/
theorem count0_empty {st : AIState} (hf : KnowledgeFresh st)
    (hstm : safesToBeMarked st = ∅) :
    ∀ s ∈ st.knowledge, s.count = 0 → s.cells = ∅ := by
  intro s hs h0
  by_contra hne
  obtain ⟨c, hc⟩ := Finset.nonempty_iff_ne_empty.mpr hne
  have hmem : c ∈ safesToBeMarked st :=
    (mem_safesToBeMarked _ _).mpr ⟨⟨s, hs, h0, hc⟩, (hf s hs c hc).1⟩
  rw [hstm] at hmem
  exact Finset.not_mem_empty c hmem

/-- A pass that only queues new sentences strictly decreases the measure. -/
theorem passMeasure_decrease_newk {M : Finset Cell} {st : AIState}
    (hf : KnowledgeFresh st) (hc : ConsistentWith M st)
    (hmtm : minesToBeMarked st = ∅) (hstm : safesToBeMarked (passMid st) = ∅)
    (hnk : subsetNew ((passMid3 st).knowledge) ≠ []) :
    passMeasure (passEnd st) < passMeasure st := by
  have hpm : passMid st = st := passMid_of_empty hmtm
  have hstm' : safesToBeMarked st = ∅ := by rw [hpm] at hstm; exact hstm
  have hc0 := count0_empty hf hstm'
  have hK3 : (passMid3 st).knowledge =
      st.knowledge.filter (fun s => ¬ s.count = 0) := by
    rw [passMid3_of_empty hstm, passMid2, hpm]
  -- the universe survives the filter
  have hU2 : sentenceUniverse ((passMid3 st).knowledge) =
      sentenceUniverse st.knowledge := by
    apply Finset.Subset.antisymm
    · exact (universe_passMid3 st).trans
        ((universe_passMid2 st).trans (by rw [hpm]))
    · intro c hcu
      rcases mem_sentenceUniverse.mp hcu with ⟨s, hs, hcs⟩
      have hcount : ¬ s.count = 0 := by
        intro h0
        rw [hc0 s hs h0] at hcs
        exact Finset.not_mem_empty c hcs
      refine mem_sentenceUniverse.mpr ⟨s, ?_, hcs⟩
      rw [hK3]
      exact List.mem_filter.mpr ⟨hs, by simpa using hcount⟩
  -- the non-empty cell-set image survives the filter
  have himg2 : cellsImage ((passMid3 st).knowledge) = cellsImage st.knowledge := by
    apply Finset.Subset.antisymm
    · intro t ht
      rcases mem_cellsImage.mp ht with ⟨⟨s, hs, rfl⟩, hne⟩
      rw [hK3] at hs
      exact mem_cellsImage.mpr ⟨⟨s, List.mem_of_mem_filter hs, rfl⟩, hne⟩
    · intro t ht
      rcases mem_cellsImage.mp ht with ⟨⟨s, hs, rfl⟩, hne⟩
      have hcount : ¬ s.count = 0 := by
        intro h0
        exact hne (hc0 s hs h0)
      refine mem_cellsImage.mpr ⟨⟨s, ?_, rfl⟩, hne⟩
      rw [hK3]
      exact List.mem_filter.mpr ⟨hs, by simpa using hcount⟩
  -- the full-pass universe
  have hU4 : sentenceUniverse ((passEnd st).knowledge) =
      sentenceUniverse st.knowledge := by
    apply Finset.Subset.antisymm
    · exact universe_passEnd st
    · have hpk : (passEnd st).knowledge =
          (passMid3 st).knowledge ++ subsetNew ((passMid3 st).knowledge) := rfl
      rw [hpk, sentenceUniverse_append, hU2]
      exact Finset.subset_union_left
  -- the image strictly grows
  have hcons3 : ConsistentWith M (passMid3 st) :=
    passMid3_consistent (passMid_consistent hc)
  have hcons4 : ConsistentWith M (passEnd st) := passEnd_consistent hc
  obtain ⟨s0, hs0⟩ := List.exists_mem_of_ne_nil _ hnk
  obtain ⟨hs0not, a, ha, b, hb, hneq, hsubq, hs0eq⟩ :=
    subsetNew_sound ((passMid3 st).knowledge) s0 hs0
  have hs0ne : s0.cells ≠ ∅ := by
    rw [hs0eq]
    intro habs
    have habs' : b.cells \ a.cells = ∅ := habs
    have hbsub : b.cells ⊆ a.cells := by
      intro x hx
      by_contra hxa
      have hx2 : x ∈ b.cells \ a.cells := Finset.mem_sdiff.mpr ⟨hx, hxa⟩
      rw [habs'] at hx2
      exact Finset.not_mem_empty x hx2
    exact hneq (Finset.Subset.antisymm hsubq hbsub)
  have hs0mem4 : s0 ∈ (passEnd st).knowledge := List.mem_append_right _ hs0
  have himgGrow : cellsImage ((passMid3 st).knowledge) ⊂
      cellsImage ((passEnd st).knowledge) := by
    constructor
    · intro t ht
      rcases mem_cellsImage.mp ht with ⟨⟨s, hs, rfl⟩, hne⟩
      exact mem_cellsImage.mpr ⟨⟨s, List.mem_append_left _ hs, rfl⟩, hne⟩
    · intro hall
      have hmem : s0.cells ∈ cellsImage ((passEnd st).knowledge) :=
        mem_cellsImage.mpr ⟨⟨s0, hs0mem4, rfl⟩, hs0ne⟩
      have hmem3 := hall hmem
      rcases mem_cellsImage.mp hmem3 with ⟨⟨t, ht3, hteq⟩, _⟩
      have htcount : t.count = s0.count := by
        have h1 := hcons3.2.2 t ht3
        have h2 := hcons4.2.2 s0 hs0mem4
        rw [hteq] at h1
        omega
      have : t = s0 := Sentence.eq_of_fields hteq htcount
      rw [this] at ht3
      exact hs0not ht3
  have himgcard : (cellsImage ((passMid3 st).knowledge)).card <
      (cellsImage ((passEnd st).knowledge)).card :=
    Finset.card_lt_card himgGrow
  have himgbound : (cellsImage ((passEnd st).knowledge)).card ≤
      ((sentenceUniverse st.knowledge).powerset.filter (fun t => t ≠ ∅)).card := by
    apply Finset.card_le_card
    have := cellsImage_subset ((passEnd st).knowledge)
    rw [hU4] at this
    exact this
  -- m1 and the universe cardinal are unchanged; m2 strictly drops
  have hm1 : m1 (passEnd st) = m1 st := by
    unfold m1
    rw [hU4, passEnd_mines, passEnd_safes, hmtm, hstm,
      Finset.union_empty, Finset.union_empty]
  have hm2 : m2 (passEnd st) < m2 st := by
    unfold m2
    rw [hU4, ← himg2]
    omega
  unfold passMeasure
  rw [hU4, hm1]
  omega

/-- Any pass that sets the `loop_again` flag strictly decreases the measure,
on fresh consistent states. -/
theorem onePass_measure {M : Finset Cell} {st : AIState} (hf : KnowledgeFresh st)
    (hc : ConsistentWith M st) (hflag : (onePass st).2 = true) :
    passMeasure (onePass st).1 < passMeasure st := by
  rw [onePass_fst]
  by_cases hmtm : minesToBeMarked st = ∅
  · by_cases hstm : safesToBeMarked (passMid st) = ∅
    · have hnk : subsetNew ((passMid3 st).knowledge) ≠ [] := by
        rw [onePass_snd, hmtm, hstm] at hflag
        simpa using hflag
      exact passMeasure_decrease_newk hf hc hmtm hstm hnk
    · exact passMeasure_decrease_marking hf
        (Finset.Nonempty.mono Finset.subset_union_right
          (Finset.nonempty_iff_ne_empty.mpr hstm))
  · exact passMeasure_decrease_marking hf
      (Finset.Nonempty.mono Finset.subset_union_left
        (Finset.nonempty_iff_ne_empty.mpr hmtm))

/-- With fuel exceeding the measure, the propagation loop reaches a pass
that reports no progress and returns. -/
theorem propagate_terminates {M : Finset Cell} :
    ∀ (n : ℕ) (st : AIState), passMeasure st ≤ n →
      KnowledgeFresh st → ConsistentWith M st →
      ∃ st', propagate (n + 1) st = some st' := by
  intro n
  induction n with
  | zero =>
    intro st hle hf hc
    have heq : propagate 1 st =
        (if (onePass st).2 then propagate 0 (onePass st).1
         else some (onePass st).1) := rfl
    by_cases hb : (onePass st).2 = true
    · exfalso
      have := onePass_measure hf hc hb
      omega
    · exact ⟨(onePass st).1, by rw [heq, if_neg hb]⟩
  | succ n ih =>
    intro st hle hf hc
    have heq : propagate (n + 1 + 1) st =
        (if (onePass st).2 then propagate (n + 1) (onePass st).1
         else some (onePass st).1) := rfl
    by_cases hb : (onePass st).2 = true
    · have hdec := onePass_measure hf hc hb
      have hf' : KnowledgeFresh (onePass st).1 := by
        rw [onePass_fst]
        exact passEnd_fresh hf
      have hc' : ConsistentWith M (onePass st).1 := by
        rw [onePass_fst]
        exact passEnd_consistent hc
      obtain ⟨st', hst'⟩ := ih (onePass st).1 (by omega) hf' hc'
      exact ⟨st', by rw [heq, if_pos hb]; exact hst'⟩
    · exact ⟨(onePass st).1, by rw [heq, if_neg hb]⟩

/-- Claim C2 as amended: on any grid, the propagation loop of
`add_knowledge` terminates for every well-formed knowledge base — one whose
sentences avoid the classified cells and which, together with the recorded
`safes` and `mines`, is satisfied by some mine assignment.  A bounded fuel
suffices, so `add_knowledge` returns. -/
theorem claim_C2_amended (st : AIState) (M : Finset Cell)
    (hf : KnowledgeFresh st) (hc : ConsistentWith M st) :
    ∃ (n : ℕ) (st' : AIState), propagate n st = some st' :=
  ⟨passMeasure st + 1, propagate_terminates (passMeasure st) st le_rfl hf hc⟩

/-- A small well-formed state for the C2 witness: one two-cell sentence with
count 1, satisfied by the assignment with a single mine. -/
def c2wState : AIState :=
  { height := 2, width := 2, moves_made := ∅, mines := ∅, safes := ∅,
    knowledge := [⟨{((0:ℤ),(0:ℤ)), ((0:ℤ),(1:ℤ))}, 1⟩] }

/-- Witness for the amended C2 at a concrete well-formed state. -/
theorem claim_C2_amended_witness :
    ∃ (n : ℕ) (st' : AIState), propagate n c2wState = some st' := by
  apply claim_C2_amended c2wState {((0:ℤ),(0:ℤ))}
  · intro s hs c hcmem
    rcases List.mem_singleton.mp hs with rfl
    exact ⟨Finset.not_mem_empty c, Finset.not_mem_empty c⟩
  · refine ⟨Finset.empty_subset _, fun c hcmem => absurd hcmem (Finset.not_mem_empty c), ?_⟩
    intro s hs
    rcases List.mem_singleton.mp hs with rfl
    decide
